import Mathlib

/-!
# Verification of the go-ethereum RLP codec

A shallow embedding of the RLP (Recursive Length Prefix) codec from
go-ethereum's `rlp` package.  Bytes are modelled as `Nat` values below 256,
byte buffers as `List Nat`.  Go's `byte(x)` truncation is written `x % 256`,
and `uint64` arithmetic carries explicit `< 2^64` side conditions where the
width matters.

The encoder side embeds `encode.go` / `encbuffer.go`: the two-layer
encoding buffer (`encBuffer` with payload string `str`, deferred list
header records `lheads`, accumulated header size `lhsize`), the integer
and byte-string writers, and the three flush paths (`copyTo`/`makeBytes`,
`writeTo`, and the lazy `encReader`).

The decoder side embeds `decode.go`: the pull-parser `Stream` with its
list-nesting stack, input-limit accounting and cached kind, plus the
stateless raw-value helpers of `rawvalue.go` (`readKind`, `readSize`,
`Split`, `AppendUint64`).

The struct-tag schema processor of `internal/rlpstruct` is embedded last.
-/

namespace RLP

/-- `intsize` from encode.go: minimal byte count of the big-endian
representation of `i` (at least 1). -/
def intsize (i : Nat) : Nat :=
  if h : i < 256 then 1 else 1 + intsize (i / 256)
  decreasing_by exact Nat.div_lt_self (by omega) (by omega)

/-- `putint` from encode.go: the minimal big-endian bytes of `i`, following
the source's eight-way case split on the magnitude of the `uint64`.
Go's `byte(x)` truncation is `% 256`. -/
def putint (i : Nat) : List Nat :=
  if i < 1 <<< 8 then [i % 256]
  else if i < 1 <<< 16 then [i >>> 8 % 256, i % 256]
  else if i < 1 <<< 24 then [i >>> 16 % 256, i >>> 8 % 256, i % 256]
  else if i < 1 <<< 32 then [i >>> 24 % 256, i >>> 16 % 256, i >>> 8 % 256, i % 256]
  else if i < 1 <<< 40 then
    [i >>> 32 % 256, i >>> 24 % 256, i >>> 16 % 256, i >>> 8 % 256, i % 256]
  else if i < 1 <<< 48 then
    [i >>> 40 % 256, i >>> 32 % 256, i >>> 24 % 256, i >>> 16 % 256, i >>> 8 % 256, i % 256]
  else if i < 1 <<< 56 then
    [i >>> 48 % 256, i >>> 40 % 256, i >>> 32 % 256, i >>> 24 % 256, i >>> 16 % 256,
     i >>> 8 % 256, i % 256]
  else
    [i >>> 56 % 256, i >>> 48 % 256, i >>> 40 % 256, i >>> 32 % 256, i >>> 24 % 256,
     i >>> 16 % 256, i >>> 8 % 256, i % 256]

/-- `headsize` from encode.go: the byte length of a string/list header for a
payload of the given size. -/
def headsize (size : Nat) : Nat :=
  if size < 56 then 1 else 1 + intsize size

/-- `puthead` from encode.go: the header bytes written for tag pair
`(smalltag, largetag)` and payload size `size`. -/
def puthead (smalltag largetag size : Nat) : List Nat :=
  if size < 56 then [smalltag + size]
  else (largetag + (putint size).length) :: putint size

/-- `encBuffer.writeUint64` from encbuffer.go, as the bytes appended to the
payload string `str`. -/
def writeUint64 (i : Nat) : List Nat :=
  if i = 0 then [0x80]
  else if i < 128 then [i]
  else (0x80 + (putint i).length) :: putint i

/-- `AppendUint64` from rawvalue.go: appends the RLP encoding of a `uint64`
to `b`, with the source's explicit case split. -/
def AppendUint64 (b : List Nat) (i : Nat) : List Nat :=
  if i = 0 then b ++ [0x80]
  else if i < 128 then b ++ [i % 256]
  else if i < 1 <<< 8 then b ++ [0x81, i % 256]
  else if i < 1 <<< 16 then b ++ [0x82, i >>> 8 % 256, i % 256]
  else if i < 1 <<< 24 then b ++ [0x83, i >>> 16 % 256, i >>> 8 % 256, i % 256]
  else if i < 1 <<< 32 then
    b ++ [0x84, i >>> 24 % 256, i >>> 16 % 256, i >>> 8 % 256, i % 256]
  else if i < 1 <<< 40 then
    b ++ [0x85, i >>> 32 % 256, i >>> 24 % 256, i >>> 16 % 256, i >>> 8 % 256, i % 256]
  else if i < 1 <<< 48 then
    b ++ [0x86, i >>> 40 % 256, i >>> 32 % 256, i >>> 24 % 256, i >>> 16 % 256,
          i >>> 8 % 256, i % 256]
  else if i < 1 <<< 56 then
    b ++ [0x87, i >>> 48 % 256, i >>> 40 % 256, i >>> 32 % 256, i >>> 24 % 256,
          i >>> 16 % 256, i >>> 8 % 256, i % 256]
  else
    b ++ [0x88, i >>> 56 % 256, i >>> 48 % 256, i >>> 40 % 256, i >>> 32 % 256,
          i >>> 24 % 256, i >>> 16 % 256, i >>> 8 % 256, i % 256]

/-- `encBuffer.encodeStringHeader` from encbuffer.go, as the bytes appended
to `str`. -/
def encodeStringHeader (size : Nat) : List Nat :=
  if size < 56 then [0x80 + size]
  else (0xB7 + (putint size).length) :: putint size

/-- `encBuffer.writeBytes` from encbuffer.go: a single byte below 0x80 is
self-encoded, otherwise a string header precedes the bytes. -/
def writeBytes (b : List Nat) : List Nat :=
  match b with
  | [x] => if x ≤ 0x7F then [x] else encodeStringHeader 1 ++ [x]
  | _ => encodeStringHeader b.length ++ b

/-- `encBuffer.writeString` from encbuffer.go (delegates to `writeBytes`;
the source converts the Go string to its bytes first). -/
def writeString (s : List Nat) : List Nat := writeBytes s

/-- `encBuffer.writeBool` from encbuffer.go. -/
def writeBool (b : Bool) : List Nat :=
  if b then [0x01] else [0x80]

/-- `listhead` from encode.go: `offset` into the payload string and `size`
(running header total while the list is open, final payload size after
`listEnd`). -/
structure Listhead where
  offset : Nat
  size : Nat
deriving Repr, DecidableEq

/-- `listhead.encode` from encode.go: the header bytes for a finalized list
header record. -/
def Listhead.encode (h : Listhead) : List Nat :=
  puthead 0xC0 0xF7 h.size

/-- `encBuffer` from encbuffer.go: payload string, deferred list-header
records in open order, and the accumulated size of all finalized headers. -/
structure EncBuffer where
  str : List Nat
  lheads : List Listhead
  lhsize : Nat
deriving Repr, DecidableEq

/-- The cleared buffer (`encBuffer.reset`). -/
def EncBuffer.empty : EncBuffer := ⟨[], [], 0⟩

/-- `encBuffer.size`: length of the eventual output. -/
def EncBuffer.size (buf : EncBuffer) : Nat :=
  buf.str.length + buf.lhsize

/-- Appending bytes to the payload string, the common shape of every leaf
writer in encbuffer.go (`writeUint64`, `writeBytes`, `writeBool`, ...). -/
def EncBuffer.append (buf : EncBuffer) (bs : List Nat) : EncBuffer :=
  { buf with str := buf.str ++ bs }

/-- `encBuffer.list`: opens a list by recording
`{offset = len(str), size = lhsize}` and returns the record's index. -/
def EncBuffer.list (buf : EncBuffer) : Nat × EncBuffer :=
  (buf.lheads.length,
   { buf with lheads := buf.lheads ++ [⟨buf.str.length, buf.lhsize⟩] })

/-- `encBuffer.listEnd`: finalizes the record at `index` with the payload
size `buf.size - offset - size` and charges its header to `lhsize`. -/
def EncBuffer.listEnd (buf : EncBuffer) (index : Nat) : EncBuffer :=
  match buf.lheads.get? index with
  | none => buf
  | some lh =>
    let newsize := buf.size - lh.offset - lh.size
    { buf with
      lheads := buf.lheads.set index ⟨lh.offset, newsize⟩,
      lhsize := buf.lhsize + (if newsize < 56 then 1 else 1 + intsize newsize) }

/-- The in-order walk of `encBuffer.copyTo` from encbuffer.go: before each
header record, the payload slice `str[strpos:offset]` is emitted, then the
encoded header; after the last record, the trailing payload. -/
def copyToLoop (str : List Nat) : List Listhead → Nat → List Nat
  | [], strpos => str.drop strpos
  | h :: hs, strpos =>
    (str.take h.offset).drop strpos ++ h.encode ++ copyToLoop str hs h.offset

/-- `encBuffer.makeBytes` / `copyTo`: the flushed output as one byte list. -/
def EncBuffer.makeBytes (buf : EncBuffer) : List Nat :=
  copyToLoop buf.str buf.lheads 0

/-- The chunk sequence written by `encBuffer.writeTo` from encbuffer.go:
the same walk as `copyTo`, but payload slices are only written when
non-empty and each chunk is a separate `Write` call. -/
def writeToLoop (str : List Nat) : List Listhead → Nat → List (List Nat)
  | [], strpos => if strpos < str.length then [str.drop strpos] else []
  | h :: hs, strpos =>
    (if 0 < h.offset - strpos then [(str.take h.offset).drop strpos] else [])
      ++ [h.encode] ++ writeToLoop str hs h.offset

/-- The bytes delivered to the `io.Writer` by `encBuffer.writeTo`. -/
def EncBuffer.writeTo (buf : EncBuffer) : List Nat :=
  (writeToLoop buf.str buf.lheads 0).flatten

/-- The piece sequence produced by `encReader.next` from encbuffer.go:
for each header record, the payload slice before it when non-empty
(`next` then advances `strpos` to the header's offset, so the immediately
following call returns the header), then the header; after the last
record, the remaining payload. -/
def encReaderPieces (str : List Nat) : List Listhead → Nat → List (List Nat)
  | [], strpos => if strpos < str.length then [str.drop strpos] else []
  | h :: hs, strpos =>
    if 0 < h.offset - strpos then
      (str.take h.offset).drop strpos :: h.encode :: encReaderPieces str hs h.offset
    else
      h.encode :: encReaderPieces str hs h.offset

/-- The total byte stream read out of an `encReader` (the concatenation of
all pieces returned by `encReader.Read`). -/
def EncBuffer.readerBytes (buf : EncBuffer) : List Nat :=
  (encReaderPieces buf.str buf.lheads 0).flatten

/-! ## Decoding stream (decode.go) -/

/-- The error discriminants surfaced by decode.go and rawvalue.go. -/
inductive Err
  | eof              -- io.EOF
  | unexpectedEOF    -- io.ErrUnexpectedEOF
  | eol              -- EOL
  | expectedString   -- ErrExpectedString
  | expectedList     -- ErrExpectedList
  | canonInt         -- ErrCanonInt
  | canonSize        -- ErrCanonSize
  | elemTooLarge     -- ErrElemTooLarge
  | valueTooLarge    -- ErrValueTooLarge
  | moreThanOneValue -- ErrMoreThanOneValue
  | notInList        -- errNotInList
  | notAtEOL         -- errNotAtEOL
  | uintOverflow     -- errUintOverflow
  | invalidBool (n : Nat)   -- "rlp: invalid boolean value: %d"
  | decodeError (msg : String) -- *decodeError with the given message
  | noFuel           -- artifact of the embedding: recursion fuel ran out
deriving Repr, DecidableEq

/-- Decidable equality of decoder results, used to settle concrete runs of
the embedded functions by `decide`. -/
instance {ε α : Type} [DecidableEq ε] [DecidableEq α] : DecidableEq (Except ε α) :=
  fun a b =>
    match a, b with
    | .error e, .error e' =>
      match decEq e e' with
      | isTrue h => isTrue (by rw [h])
      | isFalse h => isFalse (by intro hc; cases hc; exact h rfl)
    | .ok v, .ok v' =>
      match decEq v v' with
      | isTrue h => isTrue (by rw [h])
      | isFalse h => isFalse (by intro hc; cases hc; exact h rfl)
    | .error _, .ok _ => isFalse (by intro hc; cases hc)
    | .ok _, .error _ => isFalse (by intro hc; cases hc)

/-- `Kind` from decode.go. -/
inductive Kind
  | Byte
  | Str
  | ListK
deriving Repr, DecidableEq

/-- `Stream` from decode.go.  The byte source `r` is the remaining input;
`stack` holds the per-list remaining byte counters with the innermost list
at the head; `scache` is the cached `(kind, size)` when `s.kind >= 0`. -/
structure Stream where
  r : List Nat
  remaining : Nat
  limited : Bool
  stack : List Nat
  scache : Option (Kind × Nat)
  byteval : Nat
deriving Repr, DecidableEq

/-- `Stream.listLimit`: remaining byte count of the innermost list, when
inside a list. -/
def Stream.listLimit (s : Stream) : Option Nat := s.stack.head?

/-- `Stream.willRead`: clears the kind cache, then charges `n` bytes
against the innermost list counter (failing with `ErrElemTooLarge` if it
would exceed it) and against the input limit (failing with
`ErrValueTooLarge`). -/
def Stream.willRead (s : Stream) (n : Nat) : Except Err Stream :=
  let s := { s with scache := none }
  let afterStack : Except Err Stream :=
    match s.stack with
    | [] => .ok s
    | limit :: rest =>
      if n > limit then .error .elemTooLarge
      else .ok { s with stack := (limit - n) :: rest }
  match afterStack with
  | .error e => .error e
  | .ok s =>
    if s.limited then
      if n > s.remaining then .error .valueTooLarge
      else .ok { s with remaining := s.remaining - n }
    else .ok s

/-- `Stream.readByte` (EOF from the source becomes
`io.ErrUnexpectedEOF`). -/
def Stream.readByte (s : Stream) : Except Err (Nat × Stream) := do
  let s ← s.willRead 1
  match s.r with
  | [] => .error .unexpectedEOF
  | b :: rest => .ok (b, { s with r := rest })

/-- `Stream.readFull`: bulk read of `n` bytes. -/
def Stream.readFull (s : Stream) (n : Nat) : Except Err (List Nat × Stream) := do
  let s ← s.willRead n
  if n ≤ s.r.length then .ok (s.r.take n, { s with r := s.r.drop n })
  else .error .unexpectedEOF

/-- Big-endian value of a byte list (`binary.BigEndian.Uint64` over the
zero-padded buffer in the source). -/
def beUint (bs : List Nat) : Nat :=
  bs.foldl (fun acc b => acc * 256 + b) 0

/-- `Stream.readUint` from decode.go: reads a `size`-byte big-endian
integer; a leading zero byte in a multi-byte read is `ErrCanonSize`.
The `size = 0` case clears the kind cache and returns 0 without reading. -/
def Stream.readUint (s : Stream) (size : Nat) : Except Err (Nat × Stream) :=
  match size with
  | 0 => .ok (0, { s with scache := none })
  | 1 => s.readByte
  | _ => do
    let (buffer, s) ← s.readFull size
    if buffer.headD 0 = 0 then .error .canonSize
    else .ok (beUint buffer, s)

/-- `Stream.readKind` from decode.go: reads the type tag, classifying the
first byte; long-form sizes below 56 are `ErrCanonSize`; at the top level
`io.ErrUnexpectedEOF` and `ErrValueTooLarge` on the first byte are adjusted
to `io.EOF`. -/
def Stream.readKind (s : Stream) : Except Err (Kind × Nat × Stream) :=
  match s.readByte with
  | .error err =>
    .error (if s.stack.isEmpty then
              match err with
              | .unexpectedEOF => .eof
              | .valueTooLarge => .eof
              | e => e
            else err)
  | .ok (b, s) =>
    let s := { s with byteval := 0 }
    if b < 0x80 then .ok (.Byte, 0, { s with byteval := b })
    else if b < 0xB8 then .ok (.Str, b - 0x80, s)
    else if b < 0xC0 then
      match s.readUint (b - 0xB7) with
      | .error e => .error e
      | .ok (size, s) =>
        if size < 56 then .error .canonSize else .ok (.Str, size, s)
    else if b < 0xF8 then .ok (.ListK, b - 0xC0, s)
    else
      match s.readUint (b - 0xF7) with
      | .error e => .error e
      | .ok (size, s) =>
        if size < 56 then .error .canonSize else .ok (.ListK, size, s)

/-- `Stream.Kind` from decode.go: returns the cached classification when
present; otherwise checks end-of-list, reads the tag, and checks the
value's size against the enclosing list counter (as captured before the
tag was read) and the input limit. -/
def Stream.Kind (s : Stream) : Except Err (Kind × Nat × Stream) :=
  match s.scache with
  | some (k, sz) => .ok (k, sz, s)
  | none =>
    match s.stack.head? with
    | some 0 => .error .eol
    | _ =>
      match s.readKind with
      | .error e => .error e
      | .ok (k, sz, s') =>
        if s.stack.head?.isSome && sz > s.stack.head?.getD 0 then
          .error .elemTooLarge
        else if s'.limited && sz > s'.remaining then
          .error .valueTooLarge
        else .ok (k, sz, { s' with scache := some (k, sz) })

/-- `Stream.Bytes` from decode.go. -/
def Stream.Bytes (s : Stream) : Except Err (List Nat × Stream) := do
  let (kind, size, s) ← s.Kind
  match kind with
  | .Byte => .ok ([s.byteval], { s with scache := none })
  | .Str => do
    let (b, s) ← s.readFull size
    if size = 1 && b.headD 0 < 128 then .error .canonSize
    else .ok (b, s)
  | .ListK => .error .expectedString

/-- `Stream.uint` from decode.go (the integer reader behind Uint64/
Uint32/..., with the width check and canonical-integer rules). -/
def Stream.uint (s : Stream) (maxbits : Nat) : Except Err (Nat × Stream) := do
  let (kind, size, s) ← s.Kind
  match kind with
  | .Byte =>
    if s.byteval = 0 then .error .canonInt
    else .ok (s.byteval, { s with scache := none })
  | .Str =>
    if size > maxbits / 8 then .error .uintOverflow
    else
      match s.readUint size with
      | .error .canonSize => .error .canonInt
      | .error e => .error e
      | .ok (v, s) =>
        if 0 < size && v < 128 then .error .canonSize
        else .ok (v, s)
  | .ListK => .error .expectedString

/-- `Stream.Bool` from decode.go. -/
def Stream.Bool (s : Stream) : Except Err (Bool × Stream) := do
  let (num, s) ← s.uint 8
  match num with
  | 0 => .ok (false, s)
  | 1 => .ok (true, s)
  | n => .error (.invalidBool n)

/-- `Stream.List` from decode.go: requires a list tag, removes the inner
size from the enclosing list's counter, then pushes it.  The counter
update `limit - size` is Go `uint64` subtraction, which wraps around on
underflow, so it is embedded as `(limit + 2^64 - size) % 2^64` (the
underflow window is reachable: `Kind`'s element-size check uses the list
limit as captured before the tag bytes were consumed). -/
def Stream.List (s : Stream) : Except Err (Nat × Stream) := do
  let (kind, size, s) ← s.Kind
  match kind with
  | .ListK =>
    let s := match s.stack with
             | limit :: rest =>
               { s with stack := ((limit + 2 ^ 64 - size) % 2 ^ 64) :: rest }
             | [] => s
    .ok (size, { s with stack := size :: s.stack, scache := none })
  | _ => .error .expectedList

/-- `Stream.ListEnd` from decode.go: requires the current list counter to
be zero, then pops it. -/
def Stream.ListEnd (s : Stream) : Except Err Stream :=
  match s.stack with
  | [] => .error .notInList
  | limit :: rest =>
    if limit > 0 then .error .notAtEOL
    else .ok { s with stack := rest, scache := none }

/-- `Stream.Reset` for a byte-slice source, as used by `DecodeBytes`: the
input limit is the slice length (a zero `inputLimit` with a `sliceReader`
source leaves the stream unlimited). -/
def newByteStream (b : List Nat) : Stream :=
  if 0 < b.length then ⟨b, b.length, true, [], none, 0⟩
  else ⟨b, 0, false, [], none, 0⟩

/-- `DecodeBytes` from decode.go, for a decoder `dec` of the target type:
runs the decoder on a fresh stream over `b` and requires that no input
bytes remain. -/
def DecodeBytes {α : Type} (dec : Stream → Except Err (α × Stream))
    (b : List Nat) : Except Err α :=
  match dec (newByteStream b) with
  | .error e => .error e
  | .ok (v, s') => if 0 < s'.r.length then .error .moreThanOneValue else .ok v

/-! ## Raw-value utilities (rawvalue.go) -/

/-- `readSize` from rawvalue.go: the `slen`-byte big-endian length field at
the start of `b`; sizes below 56 and length fields with a leading zero byte
are `ErrCanonSize`. -/
def readSize (b : List Nat) (slen : Nat) : Except Err Nat :=
  if slen > b.length then .error .unexpectedEOF
  else
    let s : Nat :=
      match slen with
      | 1 => b.getD 0 0
      | 2 => b.getD 0 0 <<< 8 ||| b.getD 1 0
      | 3 => b.getD 0 0 <<< 16 ||| b.getD 1 0 <<< 8 ||| b.getD 2 0
      | 4 => b.getD 0 0 <<< 24 ||| b.getD 1 0 <<< 16 ||| b.getD 2 0 <<< 8 ||| b.getD 3 0
      | 5 => b.getD 0 0 <<< 32 ||| b.getD 1 0 <<< 24 ||| b.getD 2 0 <<< 16 |||
             b.getD 3 0 <<< 8 ||| b.getD 4 0
      | 6 => b.getD 0 0 <<< 40 ||| b.getD 1 0 <<< 32 ||| b.getD 2 0 <<< 24 |||
             b.getD 3 0 <<< 16 ||| b.getD 4 0 <<< 8 ||| b.getD 5 0
      | 7 => b.getD 0 0 <<< 48 ||| b.getD 1 0 <<< 40 ||| b.getD 2 0 <<< 32 |||
             b.getD 3 0 <<< 24 ||| b.getD 4 0 <<< 16 ||| b.getD 5 0 <<< 8 ||| b.getD 6 0
      | 8 => b.getD 0 0 <<< 56 ||| b.getD 1 0 <<< 48 ||| b.getD 2 0 <<< 40 |||
             b.getD 3 0 <<< 32 ||| b.getD 4 0 <<< 24 ||| b.getD 5 0 <<< 16 |||
             b.getD 6 0 <<< 8 ||| b.getD 7 0
      | _ => 0
    if s < 56 || b.headD 0 = 0 then .error .canonSize else .ok s

/-- `readKind` from rawvalue.go: classifies the value at the start of an
encoded slice, returning `(kind, tagsize, contentsize)`.  A one-byte string
whose payload byte is below 0x80 is rejected with `ErrCanonSize`, and a
declared size larger than the rest of the slice with `ErrValueTooLarge`. -/
def readKindRaw (buf : List Nat) : Except Err (Kind × Nat × Nat) :=
  match buf with
  | [] => .error .unexpectedEOF
  | b :: _ =>
    let classified : Except Err (Kind × Nat × Nat) :=
      if b < 0x80 then .ok (.Byte, 0, 1)
      else if b < 0xB8 then
        if b - 0x80 = 1 ∧ 1 < buf.length ∧ buf.getD 1 0 < 128 then .error .canonSize
        else .ok (.Str, 1, b - 0x80)
      else if b < 0xC0 then
        match readSize (buf.drop 1) (b - 0xB7) with
        | .error e => .error e
        | .ok cs => .ok (.Str, (b - 0xB7) + 1, cs)
      else if b < 0xF8 then .ok (.ListK, 1, b - 0xC0)
      else
        match readSize (buf.drop 1) (b - 0xF7) with
        | .error e => .error e
        | .ok cs => .ok (.ListK, (b - 0xF7) + 1, cs)
    match classified with
    | .error e => .error e
    | .ok (k, ts, cs) =>
      if cs > buf.length - ts then .error .valueTooLarge
      else .ok (k, ts, cs)

/-- `Split` from rawvalue.go: content and rest of the first encoded
value. -/
def Split (b : List Nat) : Except Err (Kind × List Nat × List Nat) :=
  match readKindRaw b with
  | .error e => .error e
  | .ok (k, ts, cs) => .ok (k, (b.drop ts).take cs, b.drop (ts + cs))

/-! ## The supported value universe and the type-directed writers

`Val` mirrors the value shapes the claims quantify over: unsigned
integers, booleans, strings, byte slices, non-byte slices and plain
structs.  `writeVal` plays each shape through the corresponding writer of
encode.go (`writeUint`, `writeBool`, `writeBytes`, `writeString`,
`makeSliceWriter`'s non-tail function, `makeStructWriter` without
optional fields) against the real encoding buffer. -/

inductive Val
  | vuint (n : Nat)
  | vbool (b : Bool)
  | vbytes (bs : List Nat)
  | vstr (bs : List Nat)
  | vlist (xs : List Val)
  | vstruct (xs : List Val)
deriving Repr

/-- The type shapes of the supported universe (`Ty.tlist` is a non-byte
slice, `Ty.tstruct` a struct without field tags). -/
inductive Ty
  | tuint
  | tbool
  | tbytes
  | tstr
  | tlist (elem : Ty)
  | tstruct (fields : List Ty)
deriving Repr

mutual

/-- The encoder of encode.go for each supported shape, run against the
encoding buffer: leaf writers append their bytes to `str`; slices write
`0xC0` when empty and otherwise open a deferred list header, encode the
elements, and close it; structs always use the list/listEnd pair. -/
def writeVal : Val → EncBuffer → EncBuffer
  | .vuint n, w => w.append (writeUint64 n)
  | .vbool b, w => w.append (writeBool b)
  | .vbytes bs, w => w.append (writeBytes bs)
  | .vstr bs, w => w.append (writeString bs)
  | .vlist xs, w =>
    if xs.length = 0 then w.append [0xC0]
    else
      let (i, w') := w.list
      (writeVals xs w').listEnd i
  | .vstruct xs, w =>
    let (i, w') := w.list
    (writeVals xs w').listEnd i

/-- Sequential encoding of list elements / struct fields. -/
def writeVals : List Val → EncBuffer → EncBuffer
  | [], w => w
  | x :: xs, w => writeVals xs (writeVal x w)

end

/-- `EncodeToBytes` from encode.go for the supported universe: encode into
a fresh buffer and flush with `makeBytes`. -/
def EncodeToBytes (v : Val) : List Nat :=
  (writeVal v EncBuffer.empty).makeBytes

mutual

/-- The decoder of decode.go for each supported shape (`decodeUint` with
64 bits, `decodeBool`, `decodeByteSlice`, `decodeString`,
`decodeListSlice`, and `makeStructDecoder`'s function for a struct whose
fields carry no tags).  The `fuel` argument is an artifact of the
embedding: the source's loops terminate because every iteration consumes
input, and every theorem below supplies enough fuel for that. -/
def decodeTy : Nat → Ty → Stream → Except Err (Val × Stream)
  | 0, _, _ => .error .noFuel
  | _ + 1, .tuint, s =>
    match s.uint 64 with
    | .error e => .error e
    | .ok (n, s) => .ok (.vuint n, s)
  | _ + 1, .tbool, s =>
    match s.Bool with
    | .error e => .error e
    | .ok (b, s) => .ok (.vbool b, s)
  | _ + 1, .tbytes, s =>
    match s.Bytes with
    | .error e => .error e
    | .ok (b, s) => .ok (.vbytes b, s)
  | _ + 1, .tstr, s =>
    match s.Bytes with
    | .error e => .error e
    | .ok (b, s) => .ok (.vstr b, s)
  | fuel + 1, .tlist e, s =>
    match s.List with
    | .error err => .error err
    | .ok (size, s) =>
      if size = 0 then
        match s.ListEnd with
        | .error err => .error err
        | .ok s => .ok (.vlist [], s)
      else
        match decodeElems fuel e s with
        | .error err => .error err
        | .ok (xs, s) =>
          match s.ListEnd with
          | .error err => .error err
          | .ok s => .ok (.vlist xs, s)
  | fuel + 1, .tstruct ts, s =>
    match s.List with
    | .error err => .error err
    | .ok (_, s) =>
      match decodeFields fuel ts s with
      | .error err => .error err
      | .ok (xs, s) =>
        match s.ListEnd with
        | .error err => .error err
        | .ok s => .ok (.vstruct xs, s)

/-- `decodeSliceElems`: decode elements until the element decoder reports
`EOL`.  `EOL` can only surface from the `Kind` check at the start of an
element, which consumes nothing, so the state at the break is the state
the element decoder started from. -/
def decodeElems : Nat → Ty → Stream → Except Err (List Val × Stream)
  | 0, _, _ => .error .noFuel
  | fuel + 1, e, s =>
    match decodeTy fuel e s with
    | .error .eol => .ok ([], s)
    | .error err => .error err
    | .ok (x, s) =>
      match decodeElems fuel e s with
      | .error err => .error err
      | .ok (xs, s) => .ok (x :: xs, s)

/-- The field loop of `makeStructDecoder` for a struct with no `optional`
fields: `EOL` on any field is the "too few elements" decode error. -/
def decodeFields : Nat → List Ty → Stream → Except Err (List Val × Stream)
  | _, [], s => .ok ([], s)
  | 0, _ :: _, _ => .error .noFuel
  | fuel + 1, t :: ts, s =>
    match decodeTy fuel t s with
    | .error .eol => .error (.decodeError "too few elements")
    | .error err => .error err
    | .ok (x, s) =>
      match decodeFields fuel ts s with
      | .error err => .error err
      | .ok (xs, s) => .ok (x :: xs, s)

end


/-! ## The C6 struct: three uint64 fields, `y` and `z` optional -/

/-- The struct shape of claim C6: `{x uint64; y uint64 `rlp:"optional"`;
z uint64 `rlp:"optional"`}`. -/
structure S3 where
  x : Nat
  y : Nat
  z : Nat
deriving Repr, DecidableEq

/-- `makeStructWriter`'s writer for `S3` (encode.go): the struct has
optional fields with `firstOptionalField = 1`, so the writer scans
backward from the last field down to the first optional one for the last
non-zero-valued field and writes fields `0..lastField` inside the
list/listEnd pair. -/
def writeS3 (v : S3) (w : EncBuffer) : EncBuffer :=
  let lastField := if v.z ≠ 0 then 2 else if v.y ≠ 0 then 1 else 0
  let iw := w.list
  let w2 := ([writeUint64 v.x, writeUint64 v.y, writeUint64 v.z].take (lastField + 1)).foldl
    EncBuffer.append iw.2
  w2.listEnd iw.1

/-- `EncodeToBytes` for an `S3` value. -/
def EncodeS3 (v : S3) : List Nat := (writeS3 v EncBuffer.empty).makeBytes

/-- `makeStructDecoder`'s decoder for `S3` (decode.go): read the list
header, then the fields in order with `Stream.uint`; `EOL` at the
non-optional first field is the "too few elements" decode error, `EOL` at
an optional field zero-fills the remaining fields and breaks; the decoder
always finishes with `ListEnd`. -/
def decodeS3 (s : Stream) : Except Err (S3 × Stream) :=
  match s.List with
  | .error e => .error e
  | .ok (_, s) =>
    match s.uint 64 with
    | .error .eol => .error (.decodeError "too few elements")
    | .error e => .error e
    | .ok (x, s) =>
      match s.uint 64 with
      | .error .eol =>
        (match s.ListEnd with
         | .error e => .error e
         | .ok s => .ok (⟨x, 0, 0⟩, s))
      | .error e => .error e
      | .ok (y, s) =>
        match s.uint 64 with
        | .error .eol =>
          (match s.ListEnd with
           | .error e => .error e
           | .ok s => .ok (⟨x, y, 0⟩, s))
        | .error e => .error e
        | .ok (z, s) =>
          match s.ListEnd with
          | .error e => .error e
          | .ok s => .ok (⟨x, y, z⟩, s)

/-! ## Schema processor (internal/rlpstruct/rlpstruct.go)

`Field.Tag` is modelled as the list of comma-separated tokens of the
`rlp:"..."` struct tag (the source splits the raw tag string with
`strings.Split` before the switch). -/

/-- The `reflect.Kind` values rlpstruct.go distinguishes (`kUint` stands
for the non-byte unsigned kinds `Uint, Uint16..Uintptr`; `kUint8` is Go's
byte). -/
inductive GoKind
  | kBool
  | kUint
  | kUint8
  | kString
  | kPtr
  | kSlice
  | kArray
  | kInterface
  | kOther
deriving Repr, DecidableEq

/-- `rlpstruct.Type`. -/
inductive GoType
  | mk (name : String) (kind : GoKind) (isEncoder : Bool) (isDecoder : Bool)
      (elem : Option GoType)

/-- Field accessors mirroring the Go struct fields. -/
def GoType.kind : GoType → GoKind
  | .mk _ k _ _ _ => k

def GoType.isEncoder : GoType → Bool
  | .mk _ _ e _ _ => e

def GoType.elem : GoType → Option GoType
  | .mk _ _ _ _ e => e

/-- `isUint` from rlpstruct.go (`Uint <= k <= Uintptr`, which includes the
byte kind `Uint8`). -/
def GoKind.isUint (k : GoKind) : Bool :=
  k = .kUint || k = .kUint8

/-- `isByte` from rlpstruct.go. -/
def GoType.isByte (t : GoType) : Bool :=
  t.kind = .kUint8 && !t.isEncoder

/-- `isByteArray` from rlpstruct.go. -/
def GoType.isByteArray (t : GoType) : Bool :=
  (t.kind = .kSlice || t.kind = .kArray) &&
    (match t.elem with
     | some e => e.isByte
     | none => false)

/-- `rlpstruct.NilKind`. -/
inductive NilKind
  | NilKindString  -- 0x80
  | NilKindList    -- 0xC0
deriving Repr, DecidableEq

/-- `Type.DefaultNilValue` from rlpstruct.go. -/
def GoType.DefaultNilValue (t : GoType) : NilKind :=
  if t.kind.isUint || t.kind = .kString || t.kind = .kBool || t.isByteArray then
    .NilKindString
  else .NilKindList

/-- `rlpstruct.Tags` (the zero value leaves `NilKind` unset, modelled as
`none`). -/
structure Tags where
  NilKind : Option NilKind := none
  NilOK : Bool := false
  Optional : Bool := false
  Tail : Bool := false
  Ignored : Bool := false
deriving Repr, DecidableEq

/-- `rlpstruct.Field` (the Go field `Type` is `typ` here since `Type` is
a Lean keyword). -/
structure Field where
  Name : String
  Index : Nat
  Exported : Bool
  typ : GoType
  Tag : List String

/-- `rlpstruct.TagError` (the `StructType` decoration added by the caller
is omitted). -/
structure TagError where
  Field : String
  Tag : String
  Err : String
deriving Repr, DecidableEq

/-- The token switch of `parseTag` from rlpstruct.go, folded over the
comma-separated tag tokens. -/
def parseTagTokens (name : String) (fieldType : GoType)
    (fieldIndex lastPublic : Nat) : List String → Tags → Except TagError Tags
  | [], ts => .ok ts
  | t :: rest, ts =>
    if t = "" then parseTagTokens name fieldType fieldIndex lastPublic rest ts
    else if t = "-" then
      parseTagTokens name fieldType fieldIndex lastPublic rest
        { ts with Ignored := true }
    else if t = "nil" ∨ t = "nilString" ∨ t = "nilList" then
      let ts := { ts with NilOK := true }
      if fieldType.kind ≠ .kPtr then
        .error ⟨name, t, "field is not a pointer"⟩
      else
        let ts :=
          if t = "nil" then
            { ts with NilKind := some (match fieldType.elem with
                | some e => e.DefaultNilValue
                | none => .NilKindList) }
          else if t = "nilString" then { ts with NilKind := some .NilKindString }
          else { ts with NilKind := some .NilKindList }
        parseTagTokens name fieldType fieldIndex lastPublic rest ts
    else if t = "optional" then
      let ts := { ts with Optional := true }
      if ts.Tail then .error ⟨name, t, "also has tail tag"⟩
      else parseTagTokens name fieldType fieldIndex lastPublic rest ts
    else if t = "tail" then
      let ts := { ts with Tail := true }
      if fieldIndex ≠ lastPublic then .error ⟨name, t, "must be on last field"⟩
      else if ts.Optional then .error ⟨name, t, "also has optional tag"⟩
      else if fieldType.kind ≠ .kSlice then
        .error ⟨name, t, "field type is not slice"⟩
      else parseTagTokens name fieldType fieldIndex lastPublic rest ts
    else .error ⟨name, t, "unknown tag"⟩

/-- `parseTag` from rlpstruct.go. -/
def parseTag (field : Field) (lastPublic : Nat) : Except TagError Tags :=
  parseTagTokens field.Name field.typ field.Index lastPublic field.Tag {}

/-- `lastPublicField` from rlpstruct.go. -/
def lastPublicField (fields : List Field) : Nat :=
  fields.foldl (fun last f => if f.Exported then f.Index else last) 0

/-- The collection loop of `ProcessFields`: skip unexported fields, parse
each tag, skip ignored fields, keep the rest in order. -/
def collectFields (lastPublic : Nat) :
    List Field → Except TagError (List Field × List Tags)
  | [] => .ok ([], [])
  | f :: rest =>
    if !f.Exported then collectFields lastPublic rest
    else
      match parseTag f lastPublic with
      | .error e => .error e
      | .ok ts =>
        if ts.Ignored then collectFields lastPublic rest
        else
          match collectFields lastPublic rest with
          | .error e => .error e
          | .ok (fs, tss) => .ok (f :: fs, ts :: tss)

/-- The `optional` consistency loop of `ProcessFields`: `anyOptional`
becomes true at the first `optional` (or `tail`) field, after which any
field with neither tag is a `TagError` naming that field and citing the
first optional field. -/
def validateOptional : List (String × Tags) → Bool → String → Option TagError
  | [], _, _ => none
  | (name, ts) :: rest, anyOptional, firstOptionalName =>
    if ts.Optional || ts.Tail then
      validateOptional rest true (if anyOptional then firstOptionalName else name)
    else if anyOptional then
      some ⟨name, "",
        "must be optional because preceding field " ++ firstOptionalName
          ++ " is optional"⟩
    else validateOptional rest anyOptional firstOptionalName

/-- `ProcessFields` from rlpstruct.go. -/
def ProcessFields (allFields : List Field) :
    Except TagError (List Field × List Tags) :=
  let lastPublic := lastPublicField allFields
  match collectFields lastPublic allFields with
  | .error e => .error e
  | .ok (fields, tags) =>
    match validateOptional (List.zip (fields.map Field.Name) tags) false "" with
    | some e => .error e
    | none => .ok (fields, tags)

/-- The tag-error path of `makeStructWriter` (encode.go): the writer
builder calls `structFields`, which forwards `ProcessFields`' error. -/
def makeStructWriterErr (allFields : List Field) : Option TagError :=
  match ProcessFields allFields with
  | .error e => some e
  | .ok _ => none

/-- The tag-error path of `makeStructDecoder` (decode.go): the decoder
builder calls the same `structFields`. -/
def makeStructDecoderErr (allFields : List Field) : Option TagError :=
  match ProcessFields allFields with
  | .error e => some e
  | .ok _ => none

/-- The loop-shaped consistency check: a field with neither `optional` nor
`tail` may not follow one that has either. -/
def optConsistent : List Tags → Bool
  | [] => true
  | ts :: rest =>
    if ts.Optional || ts.Tail then rest.all (fun t => t.Optional || t.Tail)
    else optConsistent rest

/-! ## Buffer operation sequences (for the flush-equivalence claim) -/

/-- The buffer operations of encbuffer.go that a flush can observe:
appending payload bytes (the common effect of every leaf writer), opening
a list (`encBuffer.list`) and closing the most recently opened list
(`encBuffer.listEnd` with the index returned by the matching open, which
is how every writer in encode.go calls it).  A `closeL` without a matching
open is a no-op here; the claim only concerns balanced sequences. -/
inductive EncOp
  | write (bs : List Nat)
  | openL
  | closeL
deriving Repr

/-- A buffer state together with the stack of open list-header indices. -/
structure EncState where
  buf : EncBuffer
  opens : List Nat
deriving Repr

def applyOp (st : EncState) (op : EncOp) : EncState :=
  match op with
  | .write bs => ⟨st.buf.append bs, st.opens⟩
  | .openL =>
    let iw := st.buf.list
    ⟨iw.2, iw.1 :: st.opens⟩
  | .closeL =>
    match st.opens with
    | [] => st
    | i :: rest => ⟨st.buf.listEnd i, rest⟩

/-- Running a sequence of buffer operations from a cleared buffer. -/
def runOps (ops : List EncOp) : EncState :=
  ops.foldl applyOp ⟨EncBuffer.empty, []⟩

/-- The header bytes charged to `lhsize` by the records not currently
open: the bookkeeping invariant of `encBuffer.listEnd`. -/
def headsCharge (heads : List Listhead) (opens : List Nat) : Nat :=
  ∑ k ∈ Finset.range heads.length,
    if k ∈ opens then 0 else headsize ((heads.getD k ⟨0, 0⟩).size)

/-- The offsets of the header records are nondecreasing, bounded by the
payload length, and not before the walk position: the invariant that makes
the single in-order flush walk of encbuffer.go correct. -/
def offsetsOK (str : List Nat) : List Listhead → Nat → Prop
  | [], strpos => strpos ≤ str.length
  | h :: hs, strpos => strpos ≤ h.offset ∧ h.offset ≤ str.length ∧ offsetsOK str hs h.offset

/-- The flush walk up to and including the last header (no trailing
payload), used to decompose `copyToLoop` over appended header lists. -/
def copyPartial (str : List Nat) : List Listhead → Nat → List Nat
  | [], _ => []
  | h :: hs, strpos =>
    (str.take h.offset).drop strpos ++ h.encode ++ copyPartial str hs h.offset

/-- The walk position after processing a header list. -/
def lastPos : List Listhead → Nat → Nat
  | [], p => p
  | h :: hs, _ => lastPos hs h.offset

/-- The invariant of reachable encoding-buffer states. -/
def EncInv (st : EncState) : Prop :=
  offsetsOK st.buf.str st.buf.lheads 0 ∧
  (∀ i ∈ st.opens, i < st.buf.lheads.length) ∧
  List.Pairwise (fun a b => b < a) st.opens ∧
  st.buf.lhsize = headsCharge st.buf.lheads st.opens ∧
  (∀ h ∈ st.buf.lheads, h.size ≤ st.buf.size)

/-! ## Region characterization of the type-directed writers

`valPayload v` is the byte string a writer appends to `str`,
`valHeads v` the finalized header records it adds (offsets relative to
the region start), computed exactly as `encBuffer.listEnd` finalizes
them.  These are proof-side characterizations of `writeVal`; the claim
theorems use the real `writeVal`/`makeBytes` pipeline. -/

def shiftHeads (d : Nat) (hs : List Listhead) : List Listhead :=
  hs.map (fun h => ⟨h.offset + d, h.size⟩)

def hsum (hs : List Listhead) : Nat :=
  (hs.map (fun h => headsize h.size)).sum

mutual

def valPayload : Val → List Nat
  | .vuint n => writeUint64 n
  | .vbool b => writeBool b
  | .vbytes bs => writeBytes bs
  | .vstr bs => writeString bs
  | .vlist xs => if xs.length = 0 then [0xC0] else valPayloadList xs
  | .vstruct xs => valPayloadList xs

def valPayloadList : List Val → List Nat
  | [] => []
  | x :: xs => valPayload x ++ valPayloadList xs

end

mutual

def valHeads : Val → List Listhead
  | .vuint _ => []
  | .vbool _ => []
  | .vbytes _ => []
  | .vstr _ => []
  | .vlist xs =>
    if xs.length = 0 then []
    else ⟨0, (valPayloadList xs).length + hsum (valHeadsList xs)⟩ :: valHeadsList xs
  | .vstruct xs =>
    ⟨0, (valPayloadList xs).length + hsum (valHeadsList xs)⟩ :: valHeadsList xs

def valHeadsList : List Val → List Listhead
  | [] => []
  | x :: xs => valHeads x ++ shiftHeads (valPayload x).length (valHeadsList xs)

end

/-- Total encoded byte length of a value / of a sequence of values. -/
def encLen (v : Val) : Nat := (valPayload v).length + hsum (valHeads v)

def encLenList (xs : List Val) : Nat :=
  (valPayloadList xs).length + hsum (valHeadsList xs)

mutual

/-- The type-checking relation between the value universe and the type
shapes: which decoder the dispatch layer would select. -/
def hasTy : Val → Ty → Bool
  | .vuint _, .tuint => true
  | .vbool _, .tbool => true
  | .vbytes _, .tbytes => true
  | .vstr _, .tstr => true
  | .vlist xs, .tlist e => hasTyList xs e
  | .vstruct xs, .tstruct ts => hasTyFields xs ts
  | _, _ => false

def hasTyList : List Val → Ty → Bool
  | [], _ => true
  | x :: xs, e => hasTy x e && hasTyList xs e

def hasTyFields : List Val → List Ty → Bool
  | [], [] => true
  | x :: xs, t :: ts => hasTy x t && hasTyFields xs ts
  | _, _ => false

end

mutual

/-- Well-formedness of a value as produced by the Go side: integers fit a
`uint64`, byte strings hold bytes and have `int`-sized lengths, and every
list payload size fits a `uint64`. -/
def wfVal : Val → Bool
  | .vuint n => decide (n < 2 ^ 64)
  | .vbool _ => true
  | .vbytes bs => bs.all (fun x => decide (x < 256)) && decide (bs.length < 2 ^ 64)
  | .vstr bs => bs.all (fun x => decide (x < 256)) && decide (bs.length < 2 ^ 64)
  | .vlist xs => decide (encLenList xs < 2 ^ 64) && wfVals xs
  | .vstruct xs => decide (encLenList xs < 2 ^ 64) && wfVals xs

def wfVals : List Val → Bool
  | [] => true
  | x :: xs => wfVal x && wfVals xs

end

mutual

/-- Sufficient recursion fuel for decoding a value (an artifact of the
fuel-indexed embedding of the decoder loops). -/
def needV : Val → Nat
  | .vuint _ => 1
  | .vbool _ => 1
  | .vbytes _ => 1
  | .vstr _ => 1
  | .vlist xs => 1 + needElemsV xs
  | .vstruct xs => 1 + needFieldsV xs

def needElemsV : List Val → Nat
  | [] => 2
  | x :: xs => 1 + max (needV x) (needElemsV xs)

def needFieldsV : List Val → Nat
  | [] => 0
  | x :: xs => 1 + max (needV x) (needFieldsV xs)

end

/-- Decoding one value of shape `t` from a byte slice, with enough fuel
for any value whose encoding fits the input. -/
def decodeValBytes (t : Ty) (b : List Nat) : Except Err Val :=
  DecodeBytes (decodeTy (2 * b.length + 2) t) b

/-- `s'` is `s` after consuming `n` input bytes: the relation every
consuming stream operation establishes (the byte value cache is
unconstrained). -/
def Consumed (s : Stream) (n : Nat) (s' : Stream) : Prop :=
  s'.r = s.r.drop n ∧ s'.limited = s.limited ∧
  s'.remaining = (if s.limited then s.remaining - n else s.remaining) ∧
  s'.stack = (match s.stack with
              | [] => ([] : List Nat)
              | L :: t => (L - n) :: t) ∧
  s'.scache = none

/-- The stream can deliver `n` more bytes within its list counter and
input limit. -/
def CanRead (s : Stream) (n : Nat) : Prop :=
  (s.limited = true → n ≤ s.remaining) ∧ (∀ L t, s.stack = L :: t → n ≤ L)

/-- The list-stack after charging `k` bytes against the innermost
counter (identity on an empty stack), as `willRead` leaves it. -/
def dropStack (st : List Nat) (k : Nat) : List Nat :=
  match st with
  | [] => []
  | L :: t => (L - k) :: t

/-! ## Helper lemmas about the integer primitives -/

theorem intsize_of_lt (i : Nat) (h : i < 256) : intsize i = 1 := by
  rw [intsize]
  simp [h]

theorem intsize_of_ge (i : Nat) (h : ¬i < 256) : intsize i = 1 + intsize (i / 256) := by
  rw [intsize]
  simp [h]

/-- For genuine `uint64` values `putint` emits exactly `intsize i` bytes. -/
theorem putint_length (i : Nat) (h : i < 2 ^ 64) : (putint i).length = intsize i := by
  unfold putint
  split
  · rw [intsize_of_lt i (by omega)]
    rfl
  · split
    · rw [intsize_of_ge i (by omega), intsize_of_lt (i / 256) (by omega)]
      rfl
    · split
      · rw [intsize_of_ge i (by omega), intsize_of_ge (i / 256) (by omega),
          intsize_of_lt (i / 256 / 256) (by omega)]
        rfl
      · split
        · rw [intsize_of_ge i (by omega), intsize_of_ge (i / 256) (by omega),
            intsize_of_ge (i / 256 / 256) (by omega),
            intsize_of_lt (i / 256 / 256 / 256) (by omega)]
          rfl
        · split
          · rw [intsize_of_ge i (by omega), intsize_of_ge (i / 256) (by omega),
              intsize_of_ge (i / 256 / 256) (by omega),
              intsize_of_ge (i / 256 / 256 / 256) (by omega),
              intsize_of_lt (i / 256 / 256 / 256 / 256) (by omega)]
            rfl
          · split
            · rw [intsize_of_ge i (by omega), intsize_of_ge (i / 256) (by omega),
                intsize_of_ge (i / 256 / 256) (by omega),
                intsize_of_ge (i / 256 / 256 / 256) (by omega),
                intsize_of_ge (i / 256 / 256 / 256 / 256) (by omega),
                intsize_of_lt (i / 256 / 256 / 256 / 256 / 256) (by omega)]
              rfl
            · split
              · rw [intsize_of_ge i (by omega), intsize_of_ge (i / 256) (by omega),
                  intsize_of_ge (i / 256 / 256) (by omega),
                  intsize_of_ge (i / 256 / 256 / 256) (by omega),
                  intsize_of_ge (i / 256 / 256 / 256 / 256) (by omega),
                  intsize_of_ge (i / 256 / 256 / 256 / 256 / 256) (by omega),
                  intsize_of_lt (i / 256 / 256 / 256 / 256 / 256 / 256) (by omega)]
                rfl
              · rw [intsize_of_ge i (by omega), intsize_of_ge (i / 256) (by omega),
                  intsize_of_ge (i / 256 / 256) (by omega),
                  intsize_of_ge (i / 256 / 256 / 256) (by omega),
                  intsize_of_ge (i / 256 / 256 / 256 / 256) (by omega),
                  intsize_of_ge (i / 256 / 256 / 256 / 256 / 256) (by omega),
                  intsize_of_ge (i / 256 / 256 / 256 / 256 / 256 / 256) (by omega),
                  intsize_of_lt (i / 256 / 256 / 256 / 256 / 256 / 256 / 256) (by omega)]
                rfl

/-- `intsize` is the minimal big-endian byte count: `i` fits in `intsize i`
bytes and (for `i ≥ 256`) does not fit in one byte fewer. -/
theorem intsize_minimal (i : Nat) :
    i < 256 ^ intsize i ∧ (¬i < 256 → 256 ^ (intsize i - 1) ≤ i) := by
  induction i using Nat.strong_induction_on with
  | _ i ih =>
    by_cases h : i < 256
    · rw [intsize_of_lt i h]
      constructor
      · simpa using h
      · intro hc
        omega
    · rw [intsize_of_ge i h]
      have hd : i / 256 < i := Nat.div_lt_self (by omega) (by omega)
      obtain ⟨h1, h2⟩ := ih (i / 256) hd
      have hmod := Nat.div_add_mod i 256
      have hmlt : i % 256 < 256 := Nat.mod_lt _ (by omega)
      constructor
      · have hle : 256 * (i / 256 + 1) ≤ 256 * 256 ^ intsize (i / 256) :=
          Nat.mul_le_mul_left 256 h1
        rw [pow_add, pow_one]
        omega
      · intro _
        by_cases h' : i / 256 < 256
        · rw [intsize_of_lt (i / 256) h']
          have : (256 : Nat) ^ (1 + 1 - 1) = 256 := by norm_num
          rw [this]
          omega
        · have hlow := h2 h'
          have hpos : 1 ≤ intsize (i / 256) := by
            rw [intsize_of_ge (i / 256) h']
            omega
          have heq : 256 ^ (1 + intsize (i / 256) - 1)
              = 256 * 256 ^ (intsize (i / 256) - 1) := by
            rw [show 1 + intsize (i / 256) - 1 = 1 + (intsize (i / 256) - 1) by omega,
              pow_add, pow_one]
          rw [heq]
          have : 256 * 256 ^ (intsize (i / 256) - 1) ≤ 256 * (i / 256) :=
            Nat.mul_le_mul_left 256 hlow
          omega


/-! ## Claim C5: boundary values of the unsigned integer encoders -/

/-- C5: the unsigned-integer encoders (`encBuffer.writeUint64` and
`AppendUint64`) produce exactly the canonical bytes at the documented
boundary points: 0 encodes to 0x80, 127 to 0x7F, 128 to 0x81 0x80,
256 to 0x82 0x01 0x00, and 1024 to 0x82 0x04 0x00. -/
theorem writeUint64_boundary_values :
    writeUint64 0 = [0x80] ∧ writeUint64 127 = [0x7F] ∧
    writeUint64 128 = [0x81, 0x80] ∧ writeUint64 256 = [0x82, 0x01, 0x00] ∧
    writeUint64 1024 = [0x82, 0x04, 0x00] ∧
    ∀ b, AppendUint64 b 0 = b ++ [0x80] ∧ AppendUint64 b 127 = b ++ [0x7F] ∧
      AppendUint64 b 128 = b ++ [0x81, 0x80] ∧
      AppendUint64 b 256 = b ++ [0x82, 0x01, 0x00] ∧
      AppendUint64 b 1024 = b ++ [0x82, 0x04, 0x00] := by
  refine ⟨by decide, by decide, by decide, by decide, by decide, fun b => ?_⟩
  refine ⟨?_, ?_, ?_, ?_, ?_⟩ <;>
    norm_num [AppendUint64, Nat.shiftLeft_eq, Nat.shiftRight_eq_div_pow]

/-! ## Claim C9: short/long header forms -/

/-- C9: for every content size, the emitted string or list header uses the
one-byte short form when the size is below 56, and otherwise the long form
of 1 plus the minimal big-endian byte count of the size; a 55-byte payload
gets a 1-byte header and a 56-byte payload a 2-byte header. -/
theorem header_form :
    (∀ size st lt, size < 56 →
      puthead st lt size = [st + size] ∧ encodeStringHeader size = [0x80 + size] ∧
      headsize size = 1) ∧
    (∀ size, 56 ≤ size → size < 2 ^ 64 →
      (∀ st lt, (puthead st lt size).length = 1 + intsize size) ∧
      (encodeStringHeader size).length = 1 + intsize size ∧
      headsize size = 1 + intsize size ∧
      256 ^ (intsize size - 1) ≤ size ∧ size < 256 ^ intsize size) ∧
    headsize 55 = 1 ∧ headsize 56 = 2 ∧
    (encodeStringHeader 55).length = 1 ∧ (encodeStringHeader 56).length = 2 ∧
    ∀ st lt, (puthead st lt 55).length = 1 ∧ (puthead st lt 56).length = 2 := by
  refine ⟨?_, ?_, ?_, ?_, by decide, by decide, ?_⟩
  · intro size st lt h
    exact ⟨by simp [puthead, h], by simp [encodeStringHeader, h], by simp [headsize, h]⟩
  · intro size h1 h2
    have hlen := putint_length size h2
    have hmin := intsize_minimal size
    refine ⟨fun st lt => ?_, ?_, ?_, ?_, hmin.1⟩
    · simp [puthead, hlen, Nat.not_lt.mpr h1]
      omega
    · simp [encodeStringHeader, hlen, Nat.not_lt.mpr h1]
      omega
    · simp [headsize, Nat.not_lt.mpr h1]
    · by_cases hc : size < 256
      · rw [intsize_of_lt size hc]
        simpa using by omega
      · exact hmin.2 hc
  · simp [headsize, intsize_of_lt 55 (by norm_num)]
  · simp [headsize, intsize_of_lt 56 (by norm_num)]
  · intro st lt
    exact ⟨by simp [puthead], by simp [puthead]; decide⟩

/-- Witness for C9: the short form at size 10 and the long form at
size 300 (two length bytes). -/
theorem header_form_witness :
    puthead 0xC0 0xF7 10 = [0xC0 + 10] ∧
    (puthead 0xC0 0xF7 300).length = 1 + intsize 300 := by
  constructor
  · exact ((header_form.1 10 0xC0 0xF7 (by decide)).1)
  · exact (header_form.2.1 300 (by decide) (by norm_num)).1 0xC0 0xF7

/-! ## Claim C3: non-canonical single-byte strings -/

/-- C3: decoding the two-byte input `0x81 0xNN` with `NN < 0x80` fails with
the canonical-form error (`ErrCanonSize`) on the streaming path
(`Stream.Bytes`) and on the raw split path (`readKind` / `Split`). -/
theorem single_byte_string_rejected :
    ∀ nn, nn < 0x80 →
      (newByteStream [0x81, nn]).Bytes = .error .canonSize ∧
      readKindRaw [0x81, nn] = .error .canonSize ∧
      Split [0x81, nn] = .error .canonSize := by
  intro nn hnn
  interval_cases nn <;> exact ⟨by decide, by decide, by decide⟩

/-- Witness for C3 at `NN = 0x01` (the spec's `81 01` example). -/
theorem single_byte_string_rejected_witness :
    (newByteStream [0x81, 0x01]).Bytes = .error .canonSize ∧
    readKindRaw [0x81, 0x01] = .error .canonSize ∧
    Split [0x81, 0x01] = .error .canonSize :=
  single_byte_string_rejected 0x01 (by decide)


/-! ## Stream step lemmas -/

theorem willRead_nil (s : Stream) (n : Nat) (hst : s.stack = []) :
    s.willRead n =
      if s.limited then
        (if n > s.remaining then .error .valueTooLarge
         else .ok { s with remaining := s.remaining - n, scache := none })
      else .ok { s with scache := none } := by
  simp only [Stream.willRead, hst]

theorem willRead_cons (s : Stream) (n L : Nat) (t : List Nat)
    (hst : s.stack = L :: t) :
    s.willRead n =
      if n > L then .error .elemTooLarge
      else if s.limited then
        (if n > s.remaining then .error .valueTooLarge
         else .ok { s with stack := (L - n) :: t, remaining := s.remaining - n,
                           scache := none })
      else .ok { s with stack := (L - n) :: t, scache := none } := by
  simp only [Stream.willRead, hst]
  by_cases h1 : n > L
  · simp [h1]
  · simp [h1]

theorem willRead_ok_fields {s : Stream} {n : Nat} {s₁ : Stream}
    (h : s.willRead n = .ok s₁) :
    s₁.r = s.r ∧ s₁.limited = s.limited ∧ s₁.scache = none ∧
    s₁.byteval = s.byteval := by
  match hst : s.stack with
  | [] =>
    rw [willRead_nil s n hst] at h
    split at h
    · split at h
      · exact absurd h (by simp)
      · simp only [Except.ok.injEq] at h
        subst h
        exact ⟨rfl, rfl, rfl, rfl⟩
    · simp only [Except.ok.injEq] at h
      subst h
      exact ⟨rfl, rfl, rfl, rfl⟩
  | L :: t =>
    rw [willRead_cons s n L t hst] at h
    split at h
    · exact absurd h (by simp)
    · split at h
      · split at h
        · exact absurd h (by simp)
        · simp only [Except.ok.injEq] at h
          subst h
          exact ⟨rfl, rfl, rfl, rfl⟩
      · simp only [Except.ok.injEq] at h
        subst h
        exact ⟨rfl, rfl, rfl, rfl⟩

theorem except_bind_ok {ε α β : Type} {x : Except ε α} {f : α → Except ε β}
    {y : β} (h : Except.bind x f = .ok y) : ∃ a, x = .ok a ∧ f a = .ok y := by
  cases x with
  | error e => exact absurd h (by simp [Except.bind])
  | ok a => exact ⟨a, rfl, h⟩

theorem readByte_ok {s : Stream} {b : Nat} {s₁ : Stream}
    (h : s.readByte = .ok (b, s₁)) : s.r = b :: s₁.r := by
  unfold Stream.readByte at h
  simp only [bind] at h
  obtain ⟨s₂, hw, h2⟩ := except_bind_ok h
  obtain ⟨hr, -, -, -⟩ := willRead_ok_fields hw
  match hr2 : s₂.r with
  | [] => rw [hr2] at h2; exact absurd h2 (by simp)
  | x :: rest =>
    rw [hr2] at h2
    simp only [Except.ok.injEq, Prod.mk.injEq] at h2
    obtain ⟨hb, hs⟩ := h2
    subst hb
    subst hs
    rw [← hr, hr2]

theorem readFull_ok {s : Stream} {n : Nat} {p : List Nat} {s₁ : Stream}
    (h : s.readFull n = .ok (p, s₁)) :
    p = s.r.take n ∧ s₁.r = s.r.drop n ∧ n ≤ s.r.length := by
  unfold Stream.readFull at h
  simp only [bind] at h
  obtain ⟨s₂, hw, h2⟩ := except_bind_ok h
  obtain ⟨hr, -, -, -⟩ := willRead_ok_fields hw
  split at h2
  · rename_i hlen
    simp only [Except.ok.injEq, Prod.mk.injEq] at h2
    obtain ⟨hp, hs⟩ := h2
    subst hp
    subst hs
    rw [hr] at hlen ⊢
    exact ⟨rfl, rfl, by omega⟩
  · exact absurd h2 (by simp)

/-! ## Claim C4: non-canonical long-form sizes -/

/-- C4: a long-form length below 56 or with a leading zero byte is
rejected with the non-canonical size error on both decoding paths; in
particular `B8 00` fails with non-canonical-size.  The first conjunct
characterizes the raw `readSize`: any accepted length is at least 56 and
its big-endian bytes have no leading zero.  The second states the
streaming `readUint`'s leading-zero rejection for multi-byte length
fields, and the third that a successful long-form `Stream.readKind` never
returns a size below 56. -/
theorem long_form_size_canonical :
    (∀ (b : List Nat) (slen v : Nat), readSize b slen = .ok v →
      56 ≤ v ∧ b.headD 0 ≠ 0) ∧
    (∀ (s : Stream) (sz v : Nat) (s' : Stream), 2 ≤ sz →
      s.readUint sz = .ok (v, s') → s.r.headD 0 ≠ 0) ∧
    (∀ (s : Stream) (k : Kind) (sz : Nat) (s' : Stream) (b : Nat) (rest : List Nat),
      s.r = b :: rest → ((0xB8 ≤ b ∧ b < 0xC0) ∨ 0xF8 ≤ b) →
      s.readKind = .ok (k, sz, s') → 56 ≤ sz) ∧
    (newByteStream [0xB8, 0x00]).Kind = .error .canonSize ∧
    (newByteStream [0xB8, 0x00]).readKind = .error .canonSize ∧
    readKindRaw [0xB8, 0x00] = .error .canonSize ∧
    readSize [0x00] 1 = .error .canonSize := by
  refine ⟨?_, ?_, ?_, by decide, by decide, by decide, by decide⟩
  · intro b slen v h
    unfold readSize at h
    split at h
    · exact absurd h (by simp)
    · split at h <;>
      · dsimp only at h
        split at h
        · exact absurd h (by simp)
        · rename_i hcond
          simp only [Bool.or_eq_true, decide_eq_true_eq, not_or] at hcond
          obtain ⟨h1, h2⟩ := hcond
          simp only [Except.ok.injEq] at h
          subst h
          exact ⟨by omega, h2⟩
  · intro s sz v s' hsz h
    match sz, hsz with
    | n + 2, _ =>
      unfold Stream.readUint at h
      simp only [bind] at h
      obtain ⟨⟨p, s₂⟩, hrf, h2⟩ := except_bind_ok h
      obtain ⟨hp, -, hlen⟩ := readFull_ok hrf
      split at h2
      · exact absurd h2 (by simp)
      · rename_i hhead
        subst hp
        match hr : s.r with
        | [] => rw [hr] at hlen; simp at hlen
        | x :: rest =>
          rw [hr] at hhead
          simp only [List.take_cons, List.headD_cons] at hhead
          simpa [hr] using hhead
  · intro s k sz s' b rest hr hb h
    unfold Stream.readKind at h
    match hrb : s.readByte with
    | .error e => rw [hrb] at h; exact absurd h (by simp)
    | .ok (b', s₁) =>
      rw [hrb] at h
      have hb' : b' = b := by
        have := readByte_ok hrb
        rw [hr] at this
        exact (List.cons.injEq _ _ _ _ ▸ this).1.symm
      dsimp only at h
      rw [hb'] at h
      rcases hb with ⟨hb1, hb2⟩ | hb1
      · rw [if_neg (by omega), if_neg (by omega), if_pos (by omega)] at h
        match hru : Stream.readUint { s₁ with byteval := 0 } (b - 0xB7) with
        | .error e => rw [hru] at h; exact absurd h (by simp)
        | .ok (size, s₂) =>
          rw [hru] at h
          dsimp only at h
          split at h
          · exact absurd h (by simp)
          · rename_i hge
            simp only [Except.ok.injEq, Prod.mk.injEq] at h
            obtain ⟨-, h2, -⟩ := h
            omega
      · rw [if_neg (by omega), if_neg (by omega), if_neg (by omega),
          if_neg (by omega)] at h
        match hru : Stream.readUint { s₁ with byteval := 0 } (b - 0xF7) with
        | .error e => rw [hru] at h; exact absurd h (by simp)
        | .ok (size, s₂) =>
          rw [hru] at h
          dsimp only at h
          split at h
          · exact absurd h (by simp)
          · rename_i hge
            simp only [Except.ok.injEq, Prod.mk.injEq] at h
            obtain ⟨-, h2, -⟩ := h
            omega

/-- Witness for C4: the raw `readSize` accepting the two-byte length field
`01 02` yields 258, which is at least 56 and has no leading zero. -/
theorem long_form_size_canonical_witness :
    56 ≤ 258 ∧ [0x01, 0x02].headD 0 ≠ 0 :=
  long_form_size_canonical.1 [0x01, 0x02] 2 258 (by decide)


/-! ## Claim C2: list-nesting counter accounting -/

/-- C2: the decoding stream keeps one remaining-byte counter per open
list.  First conjunct: when `List` succeeds with inner payload size `S`
(as classified by `Kind`), the parent's counter is decremented by `S` in
`uint64` arithmetic before `S` is pushed — the update wraps around on
underflow exactly as Go's `uint64` subtraction does, and in the in-range
regime `S ≤ L < 2^64` it is the plain decrement `L - S`.  Second: every
consuming read charges its byte count against the top counter, and a read
exceeding it fails with `ErrElemTooLarge`.  Third and fourth: `ListEnd`
fails with the not-at-end-of-list error exactly while the top counter is
non-zero. -/
theorem list_stack_accounting :
    (∀ (s s₁ : Stream) (S L : Nat) (rest : List Nat),
      s.Kind = .ok (.ListK, S, s₁) → s₁.stack = L :: rest →
      s.List = .ok (S, { s₁ with
        stack := S :: ((L + 2 ^ 64 - S) % 2 ^ 64) :: rest,
        scache := none }) ∧
      (S ≤ L → L < 2 ^ 64 → (L + 2 ^ 64 - S) % 2 ^ 64 = L - S)) ∧
    (∀ (s : Stream) (n L : Nat) (t : List Nat), s.stack = L :: t →
      (L < n → s.willRead n = .error .elemTooLarge) ∧
      (n ≤ L → s.limited = false →
        s.willRead n = .ok { s with stack := (L - n) :: t, scache := none }) ∧
      (n ≤ L → s.limited = true → n ≤ s.remaining →
        s.willRead n = .ok { s with stack := (L - n) :: t,
                                    remaining := s.remaining - n, scache := none })) ∧
    (∀ (s : Stream) (L : Nat) (t : List Nat), s.stack = L :: t → 0 < L →
      s.ListEnd = .error .notAtEOL) ∧
    (∀ (s : Stream) (t : List Nat), s.stack = 0 :: t →
      s.ListEnd = .ok { s with stack := t, scache := none }) := by
  refine ⟨?_, ?_, ?_, ?_⟩
  · intro s s₁ S L rest hk hst
    constructor
    · unfold Stream.List
      simp only [bind]
      rw [hk]
      dsimp only [Except.bind]
      rw [hst]
    · intro hSL hL
      omega
  · intro s n L t hst
    refine ⟨?_, ?_, ?_⟩
    · intro h
      rw [willRead_cons s n L t hst, if_pos (by omega)]
    · intro h hlim
      rw [willRead_cons s n L t hst, if_neg (by omega), hlim]
      simp
    · intro h hlim hrem
      rw [willRead_cons s n L t hst, if_neg (by omega), hlim]
      simp only [if_true]
      rw [if_neg (by omega)]
  · intro s L t hst hpos
    unfold Stream.ListEnd
    rw [hst]
    simp only [gt_iff_lt, hpos, if_true]
  · intro s t hst
    unfold Stream.ListEnd
    rw [hst]
    simp

/-- Witness for C2 at concrete streams: a stream inside a list of
remaining size 5 whose next value is a list of payload size 3 (in-range
decrement 5-1-3 = 1); the same parent with an inner list of payload size
5 that overruns the post-header counter 4, where the `uint64` decrement
wraps to `2^64 - 1` exactly as decode.go's does; a bulk read of 7 bytes
against a top counter of 5; and `ListEnd` with counters 2 and 0. -/
theorem list_stack_accounting_witness :
    (⟨[0xC3, 1, 2, 3], 10, true, [5], none, 0⟩ : Stream).List
      = .ok (3, ⟨[1, 2, 3], 9, true, [3, 1], none, 0⟩) ∧
    (⟨[0xC5, 1, 2, 3, 4, 5], 10, true, [5], none, 0⟩ : Stream).List
      = .ok (5, ⟨[1, 2, 3, 4, 5], 9, true, [5, 2 ^ 64 - 1], none, 0⟩) ∧
    (⟨[1, 2], 10, true, [5], none, 0⟩ : Stream).willRead 7 = .error .elemTooLarge ∧
    (⟨[1, 2], 10, true, [2], none, 0⟩ : Stream).ListEnd = .error .notAtEOL ∧
    (⟨[1, 2], 10, true, [0, 4], none, 0⟩ : Stream).ListEnd
      = .ok ⟨[1, 2], 10, true, [4], none, 0⟩ := by
  refine ⟨?_, ?_, ?_, ?_, ?_⟩
  · have h := list_stack_accounting.1 ⟨[0xC3, 1, 2, 3], 10, true, [5], none, 0⟩
      ⟨[1, 2, 3], 9, true, [4], some (.ListK, 3), 0⟩ 3 4 [] (by decide) (by decide)
    exact h.1.trans (by decide)
  · have h := list_stack_accounting.1
      ⟨[0xC5, 1, 2, 3, 4, 5], 10, true, [5], none, 0⟩
      ⟨[1, 2, 3, 4, 5], 9, true, [4], some (.ListK, 5), 0⟩ 5 4 []
      (by decide) (by decide)
    exact h.1.trans (by decide)
  · exact (list_stack_accounting.2.1 ⟨[1, 2], 10, true, [5], none, 0⟩ 7 5 []
      (by decide)).1 (by decide)
  · exact list_stack_accounting.2.2.1 ⟨[1, 2], 10, true, [2], none, 0⟩ 2 []
      (by decide) (by decide)
  · exact (list_stack_accounting.2.2.2 ⟨[1, 2], 10, true, [0, 4], none, 0⟩ [4]
      (by decide)).trans (by decide)


/-! ## Claim C8: DecodeBytes requires exactly one value -/

/-- C8: `DecodeBytes` succeeds iff the decoder consumes exactly the bytes
of one RLP value from the input slice; when the decoder succeeds but bytes
remain unconsumed it fails with `ErrMoreThanOneValue`, and decoder errors
pass through. -/
theorem decodeBytes_exact_consumption :
    ∀ (dec : Stream → Except Err (Val × Stream)) (b : List Nat),
      (∀ v : Val, DecodeBytes dec b = .ok v ↔
        ∃ s', dec (newByteStream b) = .ok (v, s') ∧ s'.r = []) ∧
      (∀ (v : Val) (s' : Stream), dec (newByteStream b) = .ok (v, s') →
        s'.r ≠ [] → DecodeBytes dec b = .error .moreThanOneValue) ∧
      (∀ e, dec (newByteStream b) = .error e → DecodeBytes dec b = .error e) := by
  intro dec b
  refine ⟨?_, ?_, ?_⟩
  · intro v
    unfold DecodeBytes
    match hd : dec (newByteStream b) with
    | .error e => simp
    | .ok (v', s') =>
      by_cases hr : s'.r = []
      · simp only [hr, List.length_nil, lt_irrefl, if_false, Except.ok.injEq,
          Prod.mk.injEq]
        exact ⟨fun h => ⟨s', ⟨h, rfl⟩, hr⟩, fun ⟨s₁, ⟨h, _⟩, _⟩ => h⟩
      · have hlen : 0 < s'.r.length := List.length_pos.mpr hr
        simp only [hlen, if_pos]
        constructor
        · intro h
          exact absurd h (by simp)
        · rintro ⟨s'', hs, hrr⟩
          simp only [Except.ok.injEq, Prod.mk.injEq] at hs
          exact absurd (hs.2 ▸ hrr) hr
  · intro v s' hd hr
    unfold DecodeBytes
    rw [hd]
    have hlen : 0 < s'.r.length := List.length_pos.mpr hr
    simp [hlen]
  · intro e hd
    unfold DecodeBytes
    rw [hd]

/-- Witness for C8: decoding the single byte `0x05` as a uint consumes the
whole input and succeeds; the same decoder on `05 06` leaves one byte and
fails with the more-than-one-value error. -/
theorem decodeBytes_exact_consumption_witness :
    DecodeBytes (decodeTy 10 .tuint) [0x05] = .ok (.vuint 5) ∧
    DecodeBytes (decodeTy 10 .tuint) [0x05, 0x06] = .error .moreThanOneValue := by
  constructor
  · exact ((decodeBytes_exact_consumption (decodeTy 10 .tuint) [0x05]).1
      (.vuint 5)).mpr ⟨⟨[], 0, true, [], none, 5⟩, rfl, rfl⟩
  · exact (decodeBytes_exact_consumption (decodeTy 10 .tuint) [0x05, 0x06]).2.1
      (.vuint 5) ⟨[0x06], 1, true, [], none, 5⟩ rfl (by simp)


/-! ## Claim C6: optional-field suppression and zero-filling -/

/-- C6: for the struct `{x uint64; y,z uint64 optional}` the encoder scans
backward from the last field for the last non-zero-valued field and writes
only fields up to and including it (the general conjunct identifies the
encoding with that of the correspondingly truncated field list), while the
decoder zero-fills optional fields missing from the end of the input list:
`{5,0,0}` encodes to `C1 05`, and both `C1 05` and `C3 05 80 80` decode to
`{5,0,0}`. -/
theorem struct_optional_suppression :
    EncodeS3 ⟨5, 0, 0⟩ = [0xC1, 0x05] ∧
    DecodeBytes decodeS3 [0xC1, 0x05] = .ok ⟨5, 0, 0⟩ ∧
    DecodeBytes decodeS3 [0xC3, 0x05, 0x80, 0x80] = .ok ⟨5, 0, 0⟩ ∧
    ∀ v : S3, EncodeS3 v = EncodeToBytes (.vstruct (
      if v.z ≠ 0 then [.vuint v.x, .vuint v.y, .vuint v.z]
      else if v.y ≠ 0 then [.vuint v.x, .vuint v.y]
      else [.vuint v.x])) := by
  refine ⟨by decide, by decide, by decide, ?_⟩
  intro v
  by_cases hz : v.z ≠ 0
  · rw [if_pos hz]
    simp only [EncodeS3, writeS3, hz, ne_eq, not_false_eq_true, if_true,
      EncodeToBytes, writeVal, writeVals]
    rfl
  · rw [if_neg hz]
    by_cases hy : v.y ≠ 0
    · rw [if_pos hy]
      simp only [EncodeS3, writeS3, hz, hy, ne_eq, not_false_eq_true, if_true,
        if_false, EncodeToBytes, writeVal, writeVals]
      rfl
    · rw [if_neg hy]
      simp only [EncodeS3, writeS3, hz, hy, ne_eq, if_false,
        EncodeToBytes, writeVal, writeVals]
      rfl


/-! ## Claim C7: optional-tag validation in the schema processor -/

theorem validateOptional_cons (name : String) (ts : Tags)
    (rest : List (String × Tags)) (any : Bool) (first : String) :
    validateOptional ((name, ts) :: rest) any first =
      if (ts.Optional || ts.Tail) = true then
        validateOptional rest true (if any then first else name)
      else if any = true then
        some ⟨name, "",
          "must be optional because preceding field " ++ first ++ " is optional"⟩
      else validateOptional rest any first := rfl

theorem optConsistent_cons (ts : Tags) (l : List Tags) :
    optConsistent (ts :: l) =
      if (ts.Optional || ts.Tail) = true then
        l.all (fun t => t.Optional || t.Tail)
      else optConsistent l := rfl

theorem validateOptional_true_none (l : List (String × Tags)) (first : String) :
    validateOptional l true first = none ↔
      ∀ p ∈ l, (p.2.Optional || p.2.Tail) = true := by
  induction l generalizing first with
  | nil => simp [validateOptional]
  | cons p rest ih =>
    obtain ⟨name, ts⟩ := p
    rw [validateOptional_cons]
    by_cases ht : (ts.Optional || ts.Tail) = true
    · rw [if_pos ht]
      simp only [if_true]
      rw [ih first]
      constructor
      · intro hall p hp
        rcases List.mem_cons.mp hp with rfl | hmem
        · exact ht
        · exact hall p hmem
      · intro hall p hp
        exact hall p (List.mem_cons_of_mem _ hp)
    · rw [if_neg ht, if_pos rfl]
      constructor
      · intro hc
        exact absurd hc (by simp)
      · intro hall
        exact absurd (hall (name, ts) (List.mem_cons_self _ _)) ht

theorem validateOptional_false_none (l : List (String × Tags)) (first : String) :
    validateOptional l false first = none ↔
      optConsistent (l.map Prod.snd) = true := by
  induction l generalizing first with
  | nil => simp [validateOptional, optConsistent]
  | cons p rest ih =>
    obtain ⟨name, ts⟩ := p
    rw [validateOptional_cons, List.map_cons, optConsistent_cons]
    by_cases ht : (ts.Optional || ts.Tail) = true
    · rw [if_pos ht, if_pos ht]
      simp only [Bool.false_eq_true, if_false]
      rw [validateOptional_true_none rest name]
      simp only [List.all_eq_true, List.mem_map]
      constructor
      · intro hall t hmem
        obtain ⟨q, hq, rfl⟩ := hmem
        exact hall q hq
      · intro hall q hq
        exact hall q.2 ⟨q, hq, rfl⟩
    · rw [if_neg ht, if_neg ht]
      simp only [Bool.false_eq_true, if_false]
      exact ih first

theorem validateOptional_some (l : List (String × Tags)) (any : Bool)
    (first : String) (e : TagError) (h : validateOptional l any first = some e) :
    ∃ j, j < l.length ∧ (l.getD j ("", {})).1 = e.Field ∧
      ((l.getD j ("", {})).2.Optional || (l.getD j ("", {})).2.Tail) = false ∧
      (any = true ∨ ∃ i, i < j ∧
        ((l.getD i ("", {})).2.Optional || (l.getD i ("", {})).2.Tail) = true) := by
  induction l generalizing any first with
  | nil => exact absurd h (by simp [validateOptional])
  | cons p rest ih =>
    obtain ⟨name, ts⟩ := p
    rw [validateOptional_cons] at h
    by_cases ht : (ts.Optional || ts.Tail) = true
    · rw [if_pos ht] at h
      obtain ⟨j, hj, hn, hflag, _⟩ := ih true _ h
      refine ⟨j + 1, by simpa using hj, by simpa using hn, by simpa using hflag,
        .inr ⟨0, by omega, by simpa using ht⟩⟩
    · rw [if_neg ht] at h
      by_cases hany : any = true
      · rw [if_pos hany] at h
        simp only [Option.some.injEq] at h
        subst h
        exact ⟨0, by simp, by simp, by simpa using ht, .inl hany⟩
      · rw [if_neg hany] at h
        obtain ⟨j, hj, hn, hflag, hrest⟩ := ih any first h
        refine ⟨j + 1, by simpa using hj, by simpa using hn,
          by simpa using hflag, ?_⟩
        rcases hrest with h1 | ⟨i, hi, hti⟩
        · exact .inl h1
        · exact .inr ⟨i + 1, by omega, by simpa using hti⟩

theorem collectFields_length (lp : Nat) (fs fields : List Field)
    (tags : List Tags) (h : collectFields lp fs = .ok (fields, tags)) :
    fields.length = tags.length := by
  induction fs generalizing fields tags with
  | nil =>
    unfold collectFields at h
    simp only [Except.ok.injEq, Prod.mk.injEq] at h
    obtain ⟨h1, h2⟩ := h
    subst h1
    subst h2
    rfl
  | cons f rest ih =>
    unfold collectFields at h
    split at h
    · exact ih fields tags h
    · match hp : parseTag f lp with
      | .error e => rw [hp] at h; exact absurd h (by simp)
      | .ok ts =>
        rw [hp] at h
        dsimp only at h
        split at h
        · exact ih fields tags h
        · match hc : collectFields lp rest with
          | .error e => rw [hc] at h; exact absurd h (by simp)
          | .ok (fs', tss') =>
            rw [hc] at h
            dsimp only at h
            simp only [Except.ok.injEq, Prod.mk.injEq] at h
            obtain ⟨h1, h2⟩ := h
            subst h1
            subst h2
            simpa using ih fs' tss' hc

theorem optConsistent_iff (tags : List Tags) :
    optConsistent tags = true ↔
      ∀ i j, i < j → j < tags.length →
        ((tags.getD i {}).Optional || (tags.getD i {}).Tail) = true →
        ((tags.getD j {}).Optional || (tags.getD j {}).Tail) = true := by
  induction tags with
  | nil => simp [optConsistent]
  | cons ts rest ih =>
    rw [optConsistent_cons]
    by_cases ht : (ts.Optional || ts.Tail) = true
    · rw [if_pos ht]
      constructor
      · intro hall i j hij hj _
        match j, hij with
        | j' + 1, _ =>
          simp only [List.getD_cons_succ]
          have hj' : j' < rest.length := by simpa using hj
          rw [List.getD_eq_getElem rest {} hj']
          rw [List.all_eq_true] at hall
          exact hall _ (List.getElem_mem hj')
      · intro hind
        rw [List.all_eq_true]
        intro t hmem
        obtain ⟨j', hj', hget⟩ := List.mem_iff_getElem.mp hmem
        have := hind 0 (j' + 1) (by omega) (by simpa using hj') (by simpa using ht)
        simp only [List.getD_cons_succ] at this
        rwa [List.getD_eq_getElem rest {} hj', hget] at this
    · rw [if_neg ht, ih]
      constructor
      · intro hind i j hij hj hopt
        match i, j, hij with
        | 0, _ + 1, _ =>
          simp only [List.getD_cons_zero] at hopt
          exact absurd hopt ht
        | i' + 1, j' + 1, _ =>
          simp only [List.getD_cons_succ] at hopt ⊢
          exact hind i' j' (by omega) (by simpa using hj) hopt
      · intro hind i j hij hj hopt
        have := hind (i + 1) (j + 1) (by omega) (by simpa using hj)
          (by simpa using hopt)
        simpa using this

theorem zip_getD (l1 : List String) (l2 : List Tags) (j : Nat)
    (h : j < (l1.zip l2).length) :
    (l1.zip l2).getD j ("", {}) = (l1.getD j "", l2.getD j {}) := by
  induction l1 generalizing l2 j with
  | nil => simp [List.zip] at h
  | cons a t1 ih =>
    cases l2 with
    | nil => simp [List.zip] at h
    | cons b t2 =>
      cases j with
      | zero => simp
      | succ j' =>
        simp only [List.zip_cons_cons, List.length_cons] at h
        simpa using ih t2 j' (by omega)


/-- C7: if some field carries `optional`, every later field kept by the
schema processor must carry `optional` or `tail`; otherwise processing
fails with a tag-validation error naming the offending field, and both the
encoder and the decoder builder surface that error at codec-build time.
The first conjunct is the success direction (a successful `ProcessFields`
implies the consistency property), the second the failure direction: when
the collected tags violate the property, `ProcessFields` (and hence both
codec builders) returns a `TagError` naming a field that lacks both tags
yet follows one that has them. -/
theorem optional_tag_validation :
    (∀ (allFields fields : List Field) (tags : List Tags),
      ProcessFields allFields = .ok (fields, tags) →
      ∀ i j, i < j → j < tags.length → (tags.getD i {}).Optional = true →
        ((tags.getD j {}).Optional || (tags.getD j {}).Tail) = true) ∧
    (∀ (allFields fields : List Field) (tags : List Tags),
      collectFields (lastPublicField allFields) allFields = .ok (fields, tags) →
      optConsistent tags = false →
      ∃ e, ProcessFields allFields = .error e ∧
        makeStructWriterErr allFields = some e ∧
        makeStructDecoderErr allFields = some e ∧
        ∃ j, j < tags.length ∧
          e.Field =
            (fields.getD j ⟨"", 0, false, .mk "" .kOther false false none, []⟩).Name ∧
          ((tags.getD j {}).Optional || (tags.getD j {}).Tail) = false ∧
          ∃ i, i < j ∧ ((tags.getD i {}).Optional || (tags.getD i {}).Tail) = true) := by
  constructor
  · intro allFields fields tags h i j hij hj hopt
    unfold ProcessFields at h
    dsimp only at h
    match hc : collectFields (lastPublicField allFields) allFields with
    | .error e => rw [hc] at h; exact absurd h (by simp)
    | .ok (fs', tss') =>
      rw [hc] at h
      dsimp only at h
      match hv : validateOptional ((fs'.map Field.Name).zip tss') false "" with
      | some e => rw [hv] at h; exact absurd h (by simp)
      | none =>
        rw [hv] at h
        dsimp only at h
        simp only [Except.ok.injEq, Prod.mk.injEq] at h
        obtain ⟨h1, h2⟩ := h
        subst h1
        subst h2
        have hlen := collectFields_length _ _ _ _ hc
        have hcons := (validateOptional_false_none _ "").mp hv
        have hmap : ((fs'.map Field.Name).zip tss').map Prod.snd = tss' := by
          apply List.map_snd_zip
          rw [List.length_map]
          omega
        rw [hmap] at hcons
        exact (optConsistent_iff tss').mp hcons i j hij hj
          (by simp only [Bool.or_eq_true]; exact Or.inl hopt)
  · intro allFields fields tags hc hviol
    have hlen := collectFields_length _ _ _ _ hc
    match hv : validateOptional ((fields.map Field.Name).zip tags) false "" with
    | none =>
      have hcons := (validateOptional_false_none _ "").mp hv
      have hmap : ((fields.map Field.Name).zip tags).map Prod.snd = tags := by
        apply List.map_snd_zip
        rw [List.length_map]
        omega
      rw [hmap] at hcons
      rw [hcons] at hviol
      exact absurd hviol (by simp)
    | some e =>
      have hPF : ProcessFields allFields = .error e := by
        unfold ProcessFields
        dsimp only
        rw [hc]
        dsimp only
        rw [hv]
      obtain ⟨j, hj, hn, hflag, hrest⟩ := validateOptional_some _ _ _ _ hv
      have hzl : ((fields.map Field.Name).zip tags).length = tags.length := by
        rw [List.length_zip, List.length_map]
        omega
      rw [hzl] at hj
      have hget := zip_getD (fields.map Field.Name) tags j (by rw [hzl]; omega)
      rw [hget] at hn hflag
      refine ⟨e, hPF, by simp [makeStructWriterErr, hPF],
        by simp [makeStructDecoderErr, hPF], j, hj, ?_, hflag, ?_⟩
      · rw [← hn]
        have hjf : j < fields.length := by omega
        rw [List.getD_eq_getElem (fields.map Field.Name) "" (by simpa using hjf),
          List.getElem_map, List.getD_eq_getElem fields _ hjf]
      · rcases hrest with h1 | ⟨i, hi, hti⟩
        · exact absurd h1 (by simp)
        · have hgi := zip_getD (fields.map Field.Name) tags i (by rw [hzl]; omega)
          rw [hgi] at hti
          exact ⟨i, hi, hti⟩

/-- Witness for C7: the field list `{X uint64; Y uint64 optional;
Z uint64}` is rejected with a tag error naming `Z`. -/
theorem optional_tag_validation_witness :
    ∃ e, ProcessFields
        [⟨"X", 0, true, .mk "uint64" .kUint false false none, [""]⟩,
         ⟨"Y", 1, true, .mk "uint64" .kUint false false none, ["optional"]⟩,
         ⟨"Z", 2, true, .mk "uint64" .kUint false false none, [""]⟩] = .error e ∧
      makeStructWriterErr
        [⟨"X", 0, true, .mk "uint64" .kUint false false none, [""]⟩,
         ⟨"Y", 1, true, .mk "uint64" .kUint false false none, ["optional"]⟩,
         ⟨"Z", 2, true, .mk "uint64" .kUint false false none, [""]⟩] = some e ∧
      makeStructDecoderErr
        [⟨"X", 0, true, .mk "uint64" .kUint false false none, [""]⟩,
         ⟨"Y", 1, true, .mk "uint64" .kUint false false none, ["optional"]⟩,
         ⟨"Z", 2, true, .mk "uint64" .kUint false false none, [""]⟩] = some e ∧
      ∃ j, j < 3 ∧
        e.Field =
          (([⟨"X", 0, true, .mk "uint64" .kUint false false none, [""]⟩,
             ⟨"Y", 1, true, .mk "uint64" .kUint false false none, ["optional"]⟩,
             ⟨"Z", 2, true, .mk "uint64" .kUint false false none, [""]⟩] :
              List Field).getD j ⟨"", 0, false, .mk "" .kOther false false none, []⟩).Name ∧
        (([({} : Tags), { Optional := true }, {}].getD j {}).Optional ||
          ([({} : Tags), { Optional := true }, {}].getD j {}).Tail) = false ∧
        ∃ i, i < j ∧
          (([({} : Tags), { Optional := true }, {}].getD i {}).Optional ||
            ([({} : Tags), { Optional := true }, {}].getD i {}).Tail) = true :=
  optional_tag_validation.2
    [⟨"X", 0, true, .mk "uint64" .kUint false false none, [""]⟩,
     ⟨"Y", 1, true, .mk "uint64" .kUint false false none, ["optional"]⟩,
     ⟨"Z", 2, true, .mk "uint64" .kUint false false none, [""]⟩]
    [⟨"X", 0, true, .mk "uint64" .kUint false false none, [""]⟩,
     ⟨"Y", 1, true, .mk "uint64" .kUint false false none, ["optional"]⟩,
     ⟨"Z", 2, true, .mk "uint64" .kUint false false none, [""]⟩]
    [{}, { Optional := true }, {}] rfl (by decide)


/-! ## Flush-path lemmas -/

theorem writeToLoop_flatten (str : List Nat) (hs : List Listhead) (strpos : Nat) :
    (writeToLoop str hs strpos).flatten = copyToLoop str hs strpos := by
  induction hs generalizing strpos with
  | nil =>
    unfold writeToLoop copyToLoop
    split
    · simp
    · rename_i hge
      rw [List.flatten_nil, List.drop_eq_nil_of_le (by omega)]
  | cons h hs ih =>
    unfold writeToLoop copyToLoop
    rw [List.flatten_append, ih]
    split
    · simp
    · rename_i hle
      have hnil : (str.take h.offset).drop strpos = [] :=
        List.drop_eq_nil_of_le (by
          have := List.length_take_le h.offset str
          omega)
      rw [hnil]
      simp

theorem encReaderPieces_flatten (str : List Nat) (hs : List Listhead)
    (strpos : Nat) :
    (encReaderPieces str hs strpos).flatten = copyToLoop str hs strpos := by
  induction hs generalizing strpos with
  | nil =>
    unfold encReaderPieces copyToLoop
    split
    · simp
    · rename_i hge
      rw [List.flatten_nil, List.drop_eq_nil_of_le (by omega)]
  | cons h hs ih =>
    unfold encReaderPieces copyToLoop
    split
    · rw [List.flatten_cons, List.flatten_cons, ih]
      simp
    · rename_i hle
      rw [List.flatten_cons, ih]
      have : (str.take h.offset).drop strpos = [] :=
        List.drop_eq_nil_of_le (by
          have := List.length_take_le h.offset str
          omega)
      rw [this]
      simp

/-- For sizes that fit a `uint64`, the emitted header has exactly
`headsize` bytes. -/
theorem puthead_length (st lt size : Nat) (h : size < 2 ^ 64) :
    (puthead st lt size).length = headsize size := by
  unfold puthead headsize
  split
  · rfl
  · simp only [List.length_cons, putint_length size h]
    omega

theorem copyToLoop_length (str : List Nat) (hs : List Listhead) (strpos : Nat)
    (hoff : offsetsOK str hs strpos) (hsz : ∀ h ∈ hs, h.size < 2 ^ 64) :
    (copyToLoop str hs strpos).length =
      (str.length - strpos) + (hs.map (fun h => headsize h.size)).sum := by
  induction hs generalizing strpos with
  | nil =>
    unfold copyToLoop
    simp
  | cons h hs ih =>
    obtain ⟨h1, h2, h3⟩ := hoff
    unfold copyToLoop
    rw [List.length_append, List.length_append,
      ih h.offset h3 (fun x hx => hsz x (List.mem_cons_of_mem _ hx)),
      List.map_cons, List.sum_cons]
    have hlen : ((str.take h.offset).drop strpos).length = h.offset - strpos := by
      rw [List.length_drop, List.length_take]
      omega
    rw [hlen]
    have henc : (Listhead.encode h).length = headsize h.size :=
      puthead_length _ _ _ (hsz h (List.mem_cons_self _ _))
    rw [henc]
    omega


/-! ## Invariant preservation for buffer operation sequences -/

theorem offsetsOK_append_str (str bs : List Nat) (hs : List Listhead)
    (p : Nat) (h : offsetsOK str hs p) : offsetsOK (str ++ bs) hs p := by
  induction hs generalizing p with
  | nil =>
    unfold offsetsOK at *
    rw [List.length_append]
    omega
  | cons hd tl ih =>
    obtain ⟨h1, h2, h3⟩ := h
    exact ⟨h1, by rw [List.length_append]; omega, ih _ h3⟩

theorem offsetsOK_open (str : List Nat) (hs : List Listhead) (p lh : Nat)
    (h : offsetsOK str hs p) :
    offsetsOK str (hs ++ [⟨str.length, lh⟩]) p := by
  induction hs generalizing p with
  | nil => exact ⟨h, le_refl _, le_refl _⟩
  | cons hd tl ih =>
    obtain ⟨h1, h2, h3⟩ := h
    exact ⟨h1, h2, ih _ h3⟩

theorem offsetsOK_set (str : List Nat) (hs : List Listhead) (p i : Nat)
    (rec : Listhead) (hoff : (hs.getD i ⟨0, 0⟩).offset = rec.offset)
    (h : offsetsOK str hs p) : offsetsOK str (hs.set i rec) p := by
  induction hs generalizing p i with
  | nil => exact h
  | cons hd tl ih =>
    obtain ⟨h1, h2, h3⟩ := h
    cases i with
    | zero =>
      simp only [List.getD_cons_zero] at hoff
      rw [List.set_cons_zero]
      refine ⟨by omega, by omega, ?_⟩
      rw [← hoff]
      exact h3
    | succ i' =>
      simp only [List.getD_cons_succ] at hoff
      rw [List.set_cons_succ]
      exact ⟨h1, h2, ih _ _ hoff h3⟩

theorem headsCharge_open (heads : List Listhead) (opens : List Nat)
    (h' : Listhead) :
    headsCharge (heads ++ [h']) (heads.length :: opens) =
      headsCharge heads opens := by
  unfold headsCharge
  rw [List.length_append, List.length_singleton, Finset.sum_range_succ]
  have hlast : (heads.length ∈ heads.length :: opens) := List.mem_cons_self _ _
  rw [if_pos hlast, add_zero]
  apply Finset.sum_congr rfl
  intro k hk
  rw [Finset.mem_range] at hk
  have hne : k ≠ heads.length := by omega
  have hmem : (k ∈ heads.length :: opens) ↔ (k ∈ opens) := by
    simp [List.mem_cons, hne]
  have hget : (heads ++ [h']).getD k ⟨0, 0⟩ = heads.getD k ⟨0, 0⟩ := by
    rw [List.getD_eq_getElem?_getD, List.getD_eq_getElem?_getD,
      List.getElem?_append_left hk]
  rw [hget]
  by_cases hko : k ∈ opens
  · rw [if_pos (hmem.mpr hko), if_pos hko]
  · rw [if_neg (fun hc => hko (hmem.mp hc)), if_neg hko]

theorem headsCharge_close (heads : List Listhead) (opens : List Nat) (i : Nat)
    (rec : Listhead) (hi : i < heads.length) (hni : i ∉ opens) :
    headsCharge (heads.set i rec) opens =
      headsCharge heads (i :: opens) + headsize rec.size := by
  unfold headsCharge
  rw [List.length_set]
  have himem : i ∈ Finset.range heads.length := Finset.mem_range.mpr hi
  rw [Finset.sum_eq_sum_diff_singleton_add himem
    (fun k => if k ∈ opens then 0 else headsize (((heads.set i rec).getD k ⟨0, 0⟩).size)),
    Finset.sum_eq_sum_diff_singleton_add himem
    (fun k => if k ∈ (i :: opens) then 0 else headsize ((heads.getD k ⟨0, 0⟩).size))]
  have hterm1 : (if i ∈ opens then 0
      else headsize (((heads.set i rec).getD i ⟨0, 0⟩).size)) = headsize rec.size := by
    rw [if_neg hni]
    congr 1
    rw [List.getD_eq_getElem?_getD, List.getElem?_set_self, Option.getD_some]
    exact hi
  have hterm2 : (if i ∈ (i :: opens) then 0
      else headsize ((heads.getD i ⟨0, 0⟩).size)) = 0 := by
    rw [if_pos (List.mem_cons_self _ _)]
  rw [hterm1, hterm2, add_zero]
  have hsum : ∀ k ∈ Finset.range heads.length \ {i},
      (if k ∈ opens then 0 else headsize (((heads.set i rec).getD k ⟨0, 0⟩).size)) =
      (if k ∈ (i :: opens) then 0 else headsize ((heads.getD k ⟨0, 0⟩).size)) := by
    intro k hk
    rw [Finset.mem_sdiff, Finset.mem_singleton] at hk
    have hkne : k ≠ i := hk.2
    have hget : (heads.set i rec).getD k ⟨0, 0⟩ = heads.getD k ⟨0, 0⟩ := by
      rw [List.getD_eq_getElem?_getD, List.getD_eq_getElem?_getD,
        List.getElem?_set_ne (by omega)]
    have hmem : (k ∈ i :: opens) ↔ (k ∈ opens) := by simp [List.mem_cons, hkne]
    rw [hget]
    by_cases hko : k ∈ opens
    · rw [if_pos hko, if_pos (hmem.mpr hko)]
    · rw [if_neg hko, if_neg (fun hc => hko (hmem.mp hc))]
  rw [Finset.sum_congr rfl hsum]

theorem headsCharge_closed (heads : List Listhead) :
    headsCharge heads [] = (heads.map (fun h => headsize h.size)).sum := by
  unfold headsCharge
  induction heads using List.reverseRecOn with
  | nil => simp
  | append_singleton hs h ih =>
    rw [List.length_append, List.length_singleton, Finset.sum_range_succ,
      List.map_append, List.sum_append]
    simp only [List.not_mem_nil, if_false, List.map_cons, List.map_nil,
      List.sum_cons, List.sum_nil]
    have hget : (hs ++ [h]).getD hs.length ⟨0, 0⟩ = h := by
      rw [List.getD_eq_getElem?_getD, List.getElem?_append_right (le_refl _)]
      simp
    rw [hget]
    have hcong : ∀ k ∈ Finset.range hs.length,
        headsize (((hs ++ [h]).getD k ⟨0, 0⟩).size) =
          headsize ((hs.getD k ⟨0, 0⟩).size) := by
      intro k hk
      rw [Finset.mem_range] at hk
      have hget2 : (hs ++ [h]).getD k ⟨0, 0⟩ = hs.getD k ⟨0, 0⟩ := by
        rw [List.getD_eq_getElem?_getD, List.getD_eq_getElem?_getD,
          List.getElem?_append_left hk]
      rw [hget2]
    rw [Finset.sum_congr rfl hcong]
    simp only [List.not_mem_nil, if_false] at ih
    rw [ih]
    omega


theorem encInv_applyOp (st : EncState) (op : EncOp) (h : EncInv st) :
    EncInv (applyOp st op) := by
  obtain ⟨hoff, hbound, hpw, hch, hsz⟩ := h
  match op with
  | .write bs =>
    unfold applyOp EncBuffer.append
    dsimp only
    refine ⟨offsetsOK_append_str _ _ _ _ hoff, hbound, hpw, hch, ?_⟩
    intro hd hmem
    have := hsz hd hmem
    unfold EncBuffer.size at *
    dsimp only
    rw [List.length_append]
    omega
  | .openL =>
    unfold applyOp EncBuffer.list
    dsimp only
    refine ⟨offsetsOK_open _ _ _ _ hoff, ?_, ?_, ?_, ?_⟩
    · intro i hi
      rw [List.length_append, List.length_singleton]
      rcases List.mem_cons.mp hi with rfl | hmem
      · omega
      · have := hbound i hmem
        omega
    · exact List.Pairwise.cons (fun j hj => hbound j hj) hpw
    · exact hch.trans (headsCharge_open _ _ _).symm
    · intro hd hmem
      unfold EncBuffer.size
      dsimp only
      dsimp only at hmem
      rcases List.mem_append.mp hmem with hmem | hmem
      · have := hsz hd hmem
        unfold EncBuffer.size at this
        omega
      · rw [List.mem_singleton] at hmem
        subst hmem
        dsimp only
        omega
  | .closeL =>
    match hop : st.opens with
    | [] =>
      have hid : applyOp st .closeL = st := by
        unfold applyOp
        rw [hop]
      rw [hid]
      exact ⟨hoff, hbound, hpw, hch, hsz⟩
    | i :: rest =>
      rw [hop] at hbound hpw hch
      have hi : i < st.buf.lheads.length := hbound i (List.mem_cons_self _ _)
      have hlh : st.buf.lheads.get? i = some (st.buf.lheads.getD i ⟨0, 0⟩) := by
        rw [List.getD_eq_getElem?_getD, List.get?_eq_getElem?,
          List.getElem?_eq_getElem hi]
        rfl
      unfold applyOp
      rw [hop]
      dsimp only
      unfold EncBuffer.listEnd
      rw [hlh]
      dsimp only
      set lh := st.buf.lheads.getD i ⟨0, 0⟩ with hlhdef
      set newsize := st.buf.size - lh.offset - lh.size with hnewdef
      have hcharge : (if newsize < 56 then 1 else 1 + intsize newsize)
          = headsize newsize := rfl
      rw [hcharge]
      have hni : i ∉ rest := by
        intro hc
        have := (List.pairwise_cons.mp hpw).1 i hc
        omega
      have hh : 0 < headsize newsize := by
        unfold headsize
        split <;> omega
      refine ⟨?_, ?_, (List.pairwise_cons.mp hpw).2, ?_, ?_⟩
      · exact offsetsOK_set _ _ _ _ _ rfl hoff
      · intro j hj
        rw [List.length_set]
        exact hbound j (List.mem_cons_of_mem _ hj)
      · rw [headsCharge_close st.buf.lheads rest i ⟨lh.offset, newsize⟩ hi hni]
        dsimp only
        omega
      · intro hd hmem
        unfold EncBuffer.size
        dsimp only
        dsimp only at hmem
        rcases List.mem_or_eq_of_mem_set hmem with hmem | rfl
        · have := hsz hd hmem
          unfold EncBuffer.size at this
          omega
        · dsimp only
          unfold EncBuffer.size at hnewdef
          omega

theorem runOps_inv (ops : List EncOp) : EncInv (runOps ops) := by
  unfold runOps
  have hinit : EncInv ⟨EncBuffer.empty, []⟩ := by
    refine ⟨by simp [offsetsOK, EncBuffer.empty], by simp, by simp, ?_, by simp [EncBuffer.empty]⟩
    simp [EncBuffer.empty, headsCharge]
  generalize hst : (⟨EncBuffer.empty, []⟩ : EncState) = st at hinit ⊢
  clear hst
  induction ops generalizing st with
  | nil => exact hinit
  | cons op rest ih =>
    rw [List.foldl_cons]
    exact ih _ (encInv_applyOp st op hinit)


/-! ## Claim C10: the three flush paths agree -/

/-- C10: for every encoding-buffer state reachable by a sequence of
write/list/listEnd operations with balanced open/close (and whose total
size fits a `uint64`, as it always does in the source), the three flush
paths produce identical byte sequences — `copyTo`/`makeBytes`, `writeTo`,
and the lazy `encReader`'s concatenated pieces — and the output length is
exactly `size()`. -/
theorem flush_paths_agree (ops : List EncOp)
    (hbal : (runOps ops).opens = [])
    (hsz : (runOps ops).buf.size < 2 ^ 64) :
    (runOps ops).buf.writeTo = (runOps ops).buf.makeBytes ∧
    (runOps ops).buf.readerBytes = (runOps ops).buf.makeBytes ∧
    ((runOps ops).buf.makeBytes).length = (runOps ops).buf.size := by
  obtain ⟨hoff, hbound, hpw, hch, hszh⟩ := runOps_inv ops
  rw [hbal] at hch
  refine ⟨writeToLoop_flatten _ _ _, encReaderPieces_flatten _ _ _, ?_⟩
  unfold EncBuffer.makeBytes
  rw [copyToLoop_length _ _ _ hoff (fun h hmem => by
    have h1 := hszh h hmem
    omega)]
  rw [← headsCharge_closed, ← hch]
  unfold EncBuffer.size
  omega

/-- Witness for C10 at the operation sequence encoding `[0x01, [0x02]]`
(write, nested open/close): all three flush outputs are the 4-byte
encoding `C3 01 C1 02`. -/
theorem flush_paths_agree_witness :
    (runOps [.openL, .write [0x01], .openL, .write [0x02], .closeL,
      .closeL]).buf.writeTo
      = (runOps [.openL, .write [0x01], .openL, .write [0x02], .closeL,
        .closeL]).buf.makeBytes ∧
    (runOps [.openL, .write [0x01], .openL, .write [0x02], .closeL,
      .closeL]).buf.readerBytes
      = (runOps [.openL, .write [0x01], .openL, .write [0x02], .closeL,
        .closeL]).buf.makeBytes ∧
    ((runOps [.openL, .write [0x01], .openL, .write [0x02], .closeL,
      .closeL]).buf.makeBytes).length
      = (runOps [.openL, .write [0x01], .openL, .write [0x02], .closeL,
        .closeL]).buf.size :=
  flush_paths_agree _ (by decide) (by decide)


/-! ## The writers against the buffer: region characterization -/

theorem hsum_append (a b : List Listhead) : hsum (a ++ b) = hsum a + hsum b := by
  unfold hsum
  rw [List.map_append, List.sum_append]

theorem hsum_shift (d : Nat) (hs : List Listhead) :
    hsum (shiftHeads d hs) = hsum hs := by
  unfold hsum shiftHeads
  rw [List.map_map]
  rfl

theorem hsum_cons (h : Listhead) (hs : List Listhead) :
    hsum (h :: hs) = headsize h.size + hsum hs := by
  unfold hsum
  rw [List.map_cons, List.sum_cons]

theorem shiftHeads_zero (hs : List Listhead) : shiftHeads 0 hs = hs := by
  unfold shiftHeads
  have h : (fun h : Listhead => (⟨h.offset + 0, h.size⟩ : Listhead)) = id := by
    funext h
    simp
  rw [h, List.map_id]

theorem shiftHeads_cons (d : Nat) (h : Listhead) (hs : List Listhead) :
    shiftHeads d (h :: hs) = ⟨h.offset + d, h.size⟩ :: shiftHeads d hs := rfl

theorem shiftHeads_append (d : Nat) (a b : List Listhead) :
    shiftHeads d (a ++ b) = shiftHeads d a ++ shiftHeads d b := by
  unfold shiftHeads
  rw [List.map_append]

theorem shiftHeads_shiftHeads (d e : Nat) (hs : List Listhead) :
    shiftHeads d (shiftHeads e hs) = shiftHeads (e + d) hs := by
  unfold shiftHeads
  rw [List.map_map]
  apply List.map_congr_left
  intro h _
  simp only [Function.comp_apply]
  congr 1
  omega

theorem set_middle {α : Type} (A B : List α) (x y : α) :
    ((A ++ [x]) ++ B).set A.length y = (A ++ [y]) ++ B := by
  induction A with
  | nil => rfl
  | cons a t ih =>
    simp only [List.cons_append, List.length_cons, List.set_cons_succ, ih]

theorem get?_middle {α : Type} (A B : List α) (x : α) :
    ((A ++ [x]) ++ B).get? A.length = some x := by
  rw [List.get?_eq_getElem?, List.getElem?_append_left
    (by rw [List.length_append, List.length_singleton]; omega),
    List.getElem?_concat_length]

mutual

theorem writeVal_spec (v : Val) (w : EncBuffer) :
    writeVal v w = ⟨w.str ++ valPayload v,
      w.lheads ++ shiftHeads w.str.length (valHeads v),
      w.lhsize + hsum (valHeads v)⟩ := by
  match v with
  | .vuint n =>
    simp [writeVal, EncBuffer.append, valPayload, valHeads, shiftHeads, hsum]
  | .vbool b =>
    simp [writeVal, EncBuffer.append, valPayload, valHeads, shiftHeads, hsum]
  | .vbytes bs =>
    simp [writeVal, EncBuffer.append, valPayload, valHeads, shiftHeads, hsum]
  | .vstr bs =>
    simp [writeVal, EncBuffer.append, valPayload, valHeads, shiftHeads, hsum]
  | .vlist xs =>
    by_cases hne : xs.length = 0
    · simp [writeVal, EncBuffer.append, valPayload, valHeads, hne, shiftHeads, hsum]
    · unfold writeVal valPayload valHeads
      rw [if_neg hne, if_neg hne, if_neg hne]
      unfold EncBuffer.list
      dsimp only
      rw [writeVals_spec xs]
      unfold EncBuffer.listEnd
      dsimp only
      rw [get?_middle w.lheads (shiftHeads w.str.length (valHeadsList xs))
        (⟨w.str.length, w.lhsize⟩ : Listhead)]
      dsimp only
      unfold EncBuffer.size
      dsimp only
      rw [set_middle]
      rw [shiftHeads_cons]
      have hA : (w.str ++ valPayloadList xs).length
          + (w.lhsize + hsum (valHeadsList xs)) - w.str.length - w.lhsize
          = (valPayloadList xs).length + hsum (valHeadsList xs) := by
        rw [List.length_append]
        omega
      rw [hA]
      have hhd : (if (valPayloadList xs).length + hsum (valHeadsList xs) < 56
            then 1
            else 1 + intsize ((valPayloadList xs).length + hsum (valHeadsList xs)))
          = headsize ((valPayloadList xs).length + hsum (valHeadsList xs)) := rfl
      rw [hhd]
      congr 1
      · rw [Nat.zero_add, List.append_assoc]
        rfl
      · rw [hsum_cons]
        dsimp only
        omega
  | .vstruct xs =>
    unfold writeVal valPayload valHeads
    unfold EncBuffer.list
    dsimp only
    rw [writeVals_spec xs]
    unfold EncBuffer.listEnd
    dsimp only
    rw [get?_middle w.lheads (shiftHeads w.str.length (valHeadsList xs))
      (⟨w.str.length, w.lhsize⟩ : Listhead)]
    dsimp only
    unfold EncBuffer.size
    dsimp only
    rw [set_middle]
    rw [shiftHeads_cons]
    have hA : (w.str ++ valPayloadList xs).length
        + (w.lhsize + hsum (valHeadsList xs)) - w.str.length - w.lhsize
        = (valPayloadList xs).length + hsum (valHeadsList xs) := by
      rw [List.length_append]
      omega
    rw [hA]
    have hhd : (if (valPayloadList xs).length + hsum (valHeadsList xs) < 56
          then 1
          else 1 + intsize ((valPayloadList xs).length + hsum (valHeadsList xs)))
        = headsize ((valPayloadList xs).length + hsum (valHeadsList xs)) := rfl
    rw [hhd]
    congr 1
    · rw [Nat.zero_add, List.append_assoc]
      rfl
    · rw [hsum_cons]
      dsimp only
      omega

theorem writeVals_spec (xs : List Val) (w : EncBuffer) :
    writeVals xs w = ⟨w.str ++ valPayloadList xs,
      w.lheads ++ shiftHeads w.str.length (valHeadsList xs),
      w.lhsize + hsum (valHeadsList xs)⟩ := by
  match xs with
  | [] => simp [writeVals, valPayloadList, valHeadsList, shiftHeads, hsum]
  | x :: rest =>
    unfold writeVals valPayloadList valHeadsList
    rw [writeVal_spec x w, writeVals_spec rest]
    dsimp only
    rw [List.length_append, hsum_append, hsum_shift, shiftHeads_append,
      shiftHeads_shiftHeads]
    congr 1
    · rw [List.append_assoc]
    · rw [List.append_assoc, Nat.add_comm w.str.length (valPayload x).length]
    · rw [Nat.add_assoc]

end

/-! ## Flush decomposition over regions -/

theorem encodeToBytes_eq (v : Val) :
    EncodeToBytes v = copyToLoop (valPayload v) (valHeads v) 0 := by
  unfold EncodeToBytes EncBuffer.makeBytes
  rw [writeVal_spec v EncBuffer.empty]
  unfold EncBuffer.empty
  dsimp only
  simp only [List.nil_append, List.length_nil, shiftHeads_zero]

theorem copyToLoop_cons (str : List Nat) (h : Listhead) (t : List Listhead)
    (p : Nat) :
    copyToLoop str (h :: t) p =
      (str.take h.offset).drop p ++ h.encode ++ copyToLoop str t h.offset := rfl

theorem copyPartial_cons (str : List Nat) (h : Listhead) (t : List Listhead)
    (p : Nat) :
    copyPartial str (h :: t) p =
      (str.take h.offset).drop p ++ h.encode ++ copyPartial str t h.offset := rfl

theorem lastPos_cons (h : Listhead) (t : List Listhead) (p : Nat) :
    lastPos (h :: t) p = lastPos t h.offset := rfl

theorem copyToLoop_split (str : List Nat) (hs : List Listhead) (p : Nat) :
    copyToLoop str hs p = copyPartial str hs p ++ str.drop (lastPos hs p) := by
  induction hs generalizing p with
  | nil => rfl
  | cons h t ih =>
    rw [copyToLoop_cons, copyPartial_cons, lastPos_cons, ih h.offset]
    simp only [List.append_assoc]

theorem copyPartial_append (str : List Nat) (A B : List Listhead) (p : Nat) :
    copyPartial str (A ++ B) p
      = copyPartial str A p ++ copyPartial str B (lastPos A p) := by
  induction A generalizing p with
  | nil => rfl
  | cons h t ih =>
    rw [List.cons_append, copyPartial_cons, copyPartial_cons, lastPos_cons,
      ih h.offset]
    simp only [List.append_assoc]

theorem lastPos_append (A B : List Listhead) (p : Nat) :
    lastPos (A ++ B) p = lastPos B (lastPos A p) := by
  induction A generalizing p with
  | nil => rfl
  | cons h t ih =>
    rw [List.cons_append, lastPos_cons, lastPos_cons, ih h.offset]

theorem copyPartial_of_prefix (p1 p2 : List Nat) (A : List Listhead) (q : Nat)
    (hb : ∀ h ∈ A, h.offset ≤ p1.length) :
    copyPartial (p1 ++ p2) A q = copyPartial p1 A q := by
  induction A generalizing q with
  | nil => rfl
  | cons h t ih =>
    rw [copyPartial_cons, copyPartial_cons,
      List.take_append_of_le_length (hb h (List.mem_cons_self _ _)),
      ih _ (fun x hx => hb x (List.mem_cons_of_mem _ hx))]

theorem copyPartial_shift (p1 p2 : List Nat) (hs : List Listhead) (o : Nat) :
    copyPartial (p1 ++ p2) (shiftHeads p1.length hs) (p1.length + o) =
      copyPartial p2 hs o := by
  induction hs generalizing o with
  | nil => rfl
  | cons h t ih =>
    rw [shiftHeads_cons, copyPartial_cons, copyPartial_cons]
    have henc : (Listhead.encode ⟨h.offset + p1.length, h.size⟩) = h.encode := rfl
    rw [henc, show h.offset + p1.length = p1.length + h.offset by omega,
      List.take_append, List.drop_append, ih h.offset]

theorem lastPos_shift (d : Nat) (hs : List Listhead) (o : Nat) :
    lastPos (shiftHeads d hs) (d + o) = d + lastPos hs o := by
  induction hs generalizing o with
  | nil => rfl
  | cons h t ih =>
    rw [shiftHeads_cons, lastPos_cons, lastPos_cons]
    show lastPos (shiftHeads d t) (h.offset + d) = _
    rw [show h.offset + d = d + h.offset by omega, ih h.offset]

theorem shiftHeads_nil (d : Nat) : shiftHeads d [] = [] := rfl

theorem copyPartial_nil (str : List Nat) (p : Nat) : copyPartial str [] p = [] := rfl

theorem lastPos_nil (p : Nat) : lastPos [] p = p := rfl

theorem copyToLoop_nil (str : List Nat) (p : Nat) : copyToLoop str [] p = str.drop p := rfl

theorem copyPartial_shift_le (p1 p2 : List Nat) (h : Listhead)
    (t : List Listhead) (q : Nat) (hq : q ≤ p1.length) :
    copyPartial (p1 ++ p2) (shiftHeads p1.length (h :: t)) q =
      p1.drop q ++ copyPartial p2 (h :: t) 0 := by
  rw [shiftHeads_cons, copyPartial_cons, copyPartial_cons]
  have henc : (Listhead.encode ⟨h.offset + p1.length, h.size⟩) = h.encode := rfl
  rw [henc, show h.offset + p1.length = p1.length + h.offset by omega,
    List.take_append, List.drop_append_of_le_length hq, copyPartial_shift,
    List.drop_zero]
  simp only [List.append_assoc]

theorem lastPos_shift_le (d : Nat) (h : Listhead) (t : List Listhead) (q : Nat) :
    lastPos (shiftHeads d (h :: t)) q = d + lastPos (h :: t) 0 := by
  rw [shiftHeads_cons, lastPos_cons, lastPos_cons]
  show lastPos (shiftHeads d t) (h.offset + d) = _
  rw [show h.offset + d = d + h.offset by omega, lastPos_shift]

theorem offsetsOK_le (str : List Nat) (hs : List Listhead) (p q : Nat)
    (hq : q ≤ p) (h : offsetsOK str hs p) : offsetsOK str hs q := by
  cases hs with
  | nil => exact le_trans hq h
  | cons hd t =>
    obtain ⟨h1, h2, h3⟩ := h
    exact ⟨le_trans hq h1, h2, h3⟩

theorem offsetsOK_shift (p1 p2 : List Nat) (hs : List Listhead) (o : Nat)
    (h : offsetsOK p2 hs o) :
    offsetsOK (p1 ++ p2) (shiftHeads p1.length hs) (p1.length + o) := by
  induction hs generalizing o with
  | nil =>
    rw [shiftHeads_nil]
    unfold offsetsOK at h ⊢
    rw [List.length_append]
    omega
  | cons hd t ih =>
    obtain ⟨h1, h2, h3⟩ := h
    rw [shiftHeads_cons]
    refine ⟨?_, ?_, ?_⟩
    · show p1.length + o ≤ hd.offset + p1.length
      omega
    · show hd.offset + p1.length ≤ (p1 ++ p2).length
      rw [List.length_append]
      omega
    · show offsetsOK (p1 ++ p2) (shiftHeads p1.length t) (hd.offset + p1.length)
      have := ih _ h3
      rwa [show hd.offset + p1.length = p1.length + hd.offset by omega]

theorem offsetsOK_append_heads (str : List Nat) (A B : List Listhead) (p : Nat)
    (hA : offsetsOK str A p) (hB : offsetsOK str B (lastPos A p)) :
    offsetsOK str (A ++ B) p := by
  induction A generalizing p with
  | nil => exact hB
  | cons h t ih =>
    obtain ⟨h1, h2, h3⟩ := hA
    exact ⟨h1, h2, ih _ h3 hB⟩

theorem lastPos_le_of_offsetsOK (str : List Nat) (hs : List Listhead) (p : Nat)
    (h : offsetsOK str hs p) : lastPos hs p ≤ str.length := by
  induction hs generalizing p with
  | nil => exact h
  | cons hd t ih =>
    obtain ⟨h1, h2, h3⟩ := h
    exact ih _ h3

theorem offsetsOK_all_le (str : List Nat) (hs : List Listhead) (p : Nat)
    (h : offsetsOK str hs p) : ∀ hd ∈ hs, hd.offset ≤ str.length := by
  induction hs generalizing p with
  | nil => intro hd hmem; exact absurd hmem (List.not_mem_nil hd)
  | cons hd t ih =>
    obtain ⟨h1, h2, h3⟩ := h
    intro x hx
    rcases List.mem_cons.mp hx with rfl | hmem
    · exact h2
    · exact ih _ h3 x hmem

mutual

theorem valHeads_offsetsOK (v : Val) :
    offsetsOK (valPayload v) (valHeads v) 0 := by
  match v with
  | .vuint n => exact Nat.zero_le _
  | .vbool b => exact Nat.zero_le _
  | .vbytes bs => exact Nat.zero_le _
  | .vstr bs => exact Nat.zero_le _
  | .vlist xs =>
    by_cases hne : xs.length = 0
    · unfold valHeads
      rw [if_pos hne]
      exact Nat.zero_le _
    · unfold valPayload valHeads
      rw [if_neg hne, if_neg hne]
      exact ⟨Nat.zero_le _, Nat.zero_le _, valHeadsList_offsetsOK xs⟩
  | .vstruct xs =>
    unfold valPayload valHeads
    exact ⟨Nat.zero_le _, Nat.zero_le _, valHeadsList_offsetsOK xs⟩

theorem valHeadsList_offsetsOK (xs : List Val) :
    offsetsOK (valPayloadList xs) (valHeadsList xs) 0 := by
  match xs with
  | [] => exact Nat.zero_le _
  | x :: rest =>
    show offsetsOK (valPayload x ++ valPayloadList rest)
      (valHeads x ++ shiftHeads (valPayload x).length (valHeadsList rest)) 0
    have hA : offsetsOK (valPayload x ++ valPayloadList rest) (valHeads x) 0 :=
      offsetsOK_append_str _ _ _ _ (valHeads_offsetsOK x)
    have hlast : lastPos (valHeads x) 0 ≤ (valPayload x).length :=
      lastPos_le_of_offsetsOK _ _ _ (valHeads_offsetsOK x)
    have hB : offsetsOK (valPayload x ++ valPayloadList rest)
        (shiftHeads (valPayload x).length (valHeadsList rest))
        (lastPos (valHeads x) 0) := by
      apply offsetsOK_le _ _ ((valPayload x).length + 0) _ (by omega)
      exact offsetsOK_shift _ _ _ _ (valHeadsList_offsetsOK rest)
    exact offsetsOK_append_heads _ _ _ _ hA hB

end

theorem copyToLoop_region (xs : List Val) :
    copyToLoop (valPayloadList xs) (valHeadsList xs) 0
      = (xs.map (fun x => copyToLoop (valPayload x) (valHeads x) 0)).flatten := by
  induction xs with
  | nil => rfl
  | cons x rest ih =>
    show copyToLoop (valPayload x ++ valPayloadList rest)
      (valHeads x ++ shiftHeads (valPayload x).length (valHeadsList rest)) 0
      = _
    rw [List.map_cons, List.flatten_cons, ← ih]
    have hoffx := valHeads_offsetsOK x
    have hlast : lastPos (valHeads x) 0 ≤ (valPayload x).length :=
      lastPos_le_of_offsetsOK _ _ _ hoffx
    rw [copyToLoop_split, copyPartial_append, lastPos_append,
      copyPartial_of_prefix _ _ _ _ (offsetsOK_all_le _ _ _ hoffx)]
    match hrest : valHeadsList rest with
    | [] =>
      rw [shiftHeads_nil, copyPartial_nil, lastPos_nil,
        List.drop_append_of_le_length hlast,
        copyToLoop_split (valPayload x) (valHeads x) 0,
        copyToLoop_nil, List.drop_zero]
      simp only [List.append_nil, List.append_assoc]
    | h' :: t' =>
      rw [copyPartial_shift_le _ _ _ _ _ hlast, lastPos_shift_le,
        List.drop_append]
      rw [copyToLoop_split (valPayload x) (valHeads x) 0,
        copyToLoop_split (valPayloadList rest) (h' :: t') 0]
      simp only [List.append_assoc]

mutual

theorem valHeads_sizes (v : Val) (hwf : wfVal v = true) :
    ∀ h ∈ valHeads v, h.size < 2 ^ 64 := by
  match v with
  | .vuint n => intro h hmem; exact absurd hmem (List.not_mem_nil h)
  | .vbool b => intro h hmem; exact absurd hmem (List.not_mem_nil h)
  | .vbytes bs => intro h hmem; exact absurd hmem (List.not_mem_nil h)
  | .vstr bs => intro h hmem; exact absurd hmem (List.not_mem_nil h)
  | .vlist xs =>
    unfold wfVal at hwf
    rw [Bool.and_eq_true, decide_eq_true_eq] at hwf
    by_cases hne : xs.length = 0
    · unfold valHeads
      rw [if_pos hne]
      intro h hmem
      exact absurd hmem (List.not_mem_nil h)
    · unfold valHeads
      rw [if_neg hne]
      intro h hmem
      rcases List.mem_cons.mp hmem with rfl | hmem2
      · exact hwf.1
      · exact valHeadsList_sizes xs hwf.2 h hmem2
  | .vstruct xs =>
    unfold wfVal at hwf
    rw [Bool.and_eq_true, decide_eq_true_eq] at hwf
    intro h hmem
    rcases List.mem_cons.mp hmem with rfl | hmem2
    · exact hwf.1
    · exact valHeadsList_sizes xs hwf.2 h hmem2

theorem valHeadsList_sizes (xs : List Val) (hwf : wfVals xs = true) :
    ∀ h ∈ valHeadsList xs, h.size < 2 ^ 64 := by
  match xs with
  | [] => intro h hmem; exact absurd hmem (List.not_mem_nil h)
  | x :: rest =>
    unfold wfVals at hwf
    rw [Bool.and_eq_true] at hwf
    intro h hmem
    have hmem' : h ∈ valHeads x ++
        shiftHeads (valPayload x).length (valHeadsList rest) := hmem
    rcases List.mem_append.mp hmem' with hmem1 | hmem2
    · exact valHeads_sizes x hwf.1 h hmem1
    · obtain ⟨h0, hm0, heq⟩ := List.mem_map.mp hmem2
      have hsz : h.size = h0.size := by rw [← heq]
      rw [hsz]
      exact valHeadsList_sizes rest hwf.2 h0 hm0

end

theorem encodeToBytes_uint (n : Nat) :
    EncodeToBytes (.vuint n) = writeUint64 n := by
  rw [encodeToBytes_eq]
  show copyToLoop (writeUint64 n) [] 0 = _
  rw [copyToLoop_nil, List.drop_zero]

theorem encodeToBytes_bool (b : Bool) :
    EncodeToBytes (.vbool b) = writeBool b := by
  rw [encodeToBytes_eq]
  show copyToLoop (writeBool b) [] 0 = _
  rw [copyToLoop_nil, List.drop_zero]

theorem encodeToBytes_bytes (bs : List Nat) :
    EncodeToBytes (.vbytes bs) = writeBytes bs := by
  rw [encodeToBytes_eq]
  show copyToLoop (writeBytes bs) [] 0 = _
  rw [copyToLoop_nil, List.drop_zero]

theorem encodeToBytes_str (bs : List Nat) :
    EncodeToBytes (.vstr bs) = writeString bs := by
  rw [encodeToBytes_eq]
  show copyToLoop (writeString bs) [] 0 = _
  rw [copyToLoop_nil, List.drop_zero]

theorem encodeToBytes_list_nil :
    EncodeToBytes (.vlist []) = [0xC0] := by
  rw [encodeToBytes_eq]
  show copyToLoop [0xC0] [] 0 = _
  rw [copyToLoop_nil, List.drop_zero]

theorem encodeToBytes_list (xs : List Val) (hne : xs.length ≠ 0) :
    EncodeToBytes (.vlist xs) =
      puthead 0xC0 0xF7 (encLenList xs) ++ (xs.map EncodeToBytes).flatten := by
  rw [encodeToBytes_eq]
  show copyToLoop (if xs.length = 0 then [0xC0] else valPayloadList xs)
      (if xs.length = 0 then []
        else ⟨0, (valPayloadList xs).length + hsum (valHeadsList xs)⟩ ::
          valHeadsList xs) 0 = _
  rw [if_neg hne, if_neg hne, copyToLoop_cons, copyToLoop_region]
  show ((valPayloadList xs).take 0).drop 0 ++
      puthead 0xC0 0xF7 ((valPayloadList xs).length + hsum (valHeadsList xs)) ++
      (xs.map fun x => copyToLoop (valPayload x) (valHeads x) 0).flatten = _
  rw [List.take_zero, List.drop_zero, List.nil_append,
    List.map_congr_left (fun x _ => (encodeToBytes_eq x).symm)]
  rfl

theorem encodeToBytes_struct (xs : List Val) :
    EncodeToBytes (.vstruct xs) =
      puthead 0xC0 0xF7 (encLenList xs) ++ (xs.map EncodeToBytes).flatten := by
  rw [encodeToBytes_eq]
  show copyToLoop (valPayloadList xs)
      (⟨0, (valPayloadList xs).length + hsum (valHeadsList xs)⟩ ::
        valHeadsList xs) 0 = _
  rw [copyToLoop_cons, copyToLoop_region]
  show ((valPayloadList xs).take 0).drop 0 ++
      puthead 0xC0 0xF7 ((valPayloadList xs).length + hsum (valHeadsList xs)) ++
      (xs.map fun x => copyToLoop (valPayload x) (valHeads x) 0).flatten = _
  rw [List.take_zero, List.drop_zero, List.nil_append,
    List.map_congr_left (fun x _ => (encodeToBytes_eq x).symm)]
  rfl

theorem encodeToBytes_length (v : Val) (hwf : wfVal v = true) :
    (EncodeToBytes v).length = encLen v := by
  rw [encodeToBytes_eq,
    copyToLoop_length _ _ _ (valHeads_offsetsOK v) (valHeads_sizes v hwf)]
  show (valPayload v).length - 0 + hsum (valHeads v) = _
  rw [Nat.sub_zero]
  rfl

theorem region_length (xs : List Val) (hwf : wfVals xs = true) :
    ((xs.map EncodeToBytes).flatten).length = encLenList xs := by
  rw [List.map_congr_left (fun x _ => encodeToBytes_eq x), ← copyToLoop_region,
    copyToLoop_length _ _ _ (valHeadsList_offsetsOK xs)
      (valHeadsList_sizes xs hwf)]
  show (valPayloadList xs).length - 0 + hsum (valHeadsList xs) = _
  rw [Nat.sub_zero]
  rfl

theorem dropStack_nil (k : Nat) : dropStack [] k = [] := rfl

theorem dropStack_cons (L : Nat) (t : List Nat) (k : Nat) :
    dropStack (L :: t) k = (L - k) :: t := rfl

theorem putint_pos (i : Nat) : 1 ≤ (putint i).length := by
  unfold putint
  repeat' split
  all_goals simp

theorem putint_le8 (i : Nat) : (putint i).length ≤ 8 := by
  unfold putint
  repeat' split
  all_goals simp

theorem putint_head_ne (i : Nat) (h : 256 ≤ i) (h2 : i < 2 ^ 64) :
    (putint i).headD 0 ≠ 0 := by
  unfold putint
  repeat' split
  all_goals simp only [List.headD_cons]
  all_goals norm_num [Nat.shiftLeft_eq, Nat.shiftRight_eq_div_pow] at *
  all_goals omega

theorem beUint_putint (i : Nat) (h : i < 2 ^ 64) : beUint (putint i) = i := by
  unfold putint beUint
  repeat' split
  all_goals simp only [List.foldl_cons, List.foldl_nil]
  all_goals norm_num [Nat.shiftLeft_eq, Nat.shiftRight_eq_div_pow] at *
  all_goals omega

theorem hsum_nil : hsum [] = 0 := rfl

theorem headsize_pos (n : Nat) : 1 ≤ headsize n := by
  unfold headsize
  split
  · exact le_refl 1
  · omega

theorem writeUint64_pos (i : Nat) : 1 ≤ (writeUint64 i).length := by
  unfold writeUint64
  repeat' split
  all_goals simp

theorem encodeStringHeader_pos (n : Nat) : 1 ≤ (encodeStringHeader n).length := by
  unfold encodeStringHeader
  split
  all_goals simp

theorem writeBytes_pos (b : List Nat) : 1 ≤ (writeBytes b).length := by
  match b with
  | [x] =>
    show 1 ≤ (if x ≤ 0x7F then [x] else encodeStringHeader 1 ++ [x]).length
    split
    · simp
    · rw [List.length_append]
      have := encodeStringHeader_pos 1
      omega
  | [] =>
    show 1 ≤ (encodeStringHeader 0 ++ []).length
    rw [List.length_append]
    have := encodeStringHeader_pos 0
    omega
  | a :: b :: t =>
    show 1 ≤ (encodeStringHeader (a :: b :: t).length ++ (a :: b :: t)).length
    rw [List.length_append]
    have := encodeStringHeader_pos (a :: b :: t).length
    omega

theorem encLen_uint (n : Nat) : encLen (.vuint n) = (writeUint64 n).length := by
  show (writeUint64 n).length + hsum [] = _
  rw [hsum_nil]
  omega

theorem encLen_bool (b : Bool) : encLen (.vbool b) = (writeBool b).length := by
  show (writeBool b).length + hsum [] = _
  rw [hsum_nil]
  omega

theorem encLen_bytes (bs : List Nat) :
    encLen (.vbytes bs) = (writeBytes bs).length := by
  show (writeBytes bs).length + hsum [] = _
  rw [hsum_nil]
  omega

theorem encLen_str (bs : List Nat) :
    encLen (.vstr bs) = (writeBytes bs).length := by
  show (writeBytes bs).length + hsum [] = _
  rw [hsum_nil]
  omega

theorem encLenList_nil : encLenList [] = 0 := rfl

theorem encLenList_cons (x : Val) (xs : List Val) :
    encLenList (x :: xs) = encLen x + encLenList xs := by
  unfold encLenList encLen
  show (valPayload x ++ valPayloadList xs).length +
      hsum (valHeads x ++ shiftHeads (valPayload x).length (valHeadsList xs)) = _
  rw [List.length_append, hsum_append, hsum_shift]
  omega

theorem encLen_list_nil : encLen (.vlist []) = 1 := by
  show ([0xC0] : List Nat).length + hsum [] = 1
  rw [hsum_nil]
  simp

theorem encLen_list_ne (xs : List Val) (hne : xs.length ≠ 0) :
    encLen (.vlist xs) = headsize (encLenList xs) + encLenList xs := by
  unfold encLen
  show (if xs.length = 0 then [0xC0] else valPayloadList xs).length +
      hsum (if xs.length = 0 then []
        else ⟨0, (valPayloadList xs).length + hsum (valHeadsList xs)⟩ ::
          valHeadsList xs) = _
  rw [if_neg hne, if_neg hne, hsum_cons]
  dsimp only
  unfold encLenList
  omega

theorem encLen_struct (xs : List Val) :
    encLen (.vstruct xs) = headsize (encLenList xs) + encLenList xs := by
  unfold encLen
  show (valPayloadList xs).length +
      hsum ((⟨0, (valPayloadList xs).length + hsum (valHeadsList xs)⟩ :
        Listhead) :: valHeadsList xs) = _
  rw [hsum_cons]
  dsimp only
  unfold encLenList
  omega

theorem encLen_pos (v : Val) : 1 ≤ encLen v := by
  match v with
  | .vuint n =>
    rw [encLen_uint]
    exact writeUint64_pos n
  | .vbool b =>
    rw [encLen_bool]
    unfold writeBool
    split
    all_goals simp
  | .vbytes bs =>
    rw [encLen_bytes]
    exact writeBytes_pos bs
  | .vstr bs =>
    rw [encLen_str]
    exact writeBytes_pos bs
  | .vlist xs =>
    by_cases hne : xs.length = 0
    · match xs with
      | [] => rw [encLen_list_nil]
      | x :: t => simp at hne
    · rw [encLen_list_ne xs hne]
      have := headsize_pos (encLenList xs)
      omega
  | .vstruct xs =>
    rw [encLen_struct]
    have := headsize_pos (encLenList xs)
    omega

theorem encLenList_pos (x : Val) (xs : List Val) :
    1 ≤ encLenList (x :: xs) := by
  rw [encLenList_cons]
  have := encLen_pos x
  omega

mutual

theorem needV_le (v : Val) : needV v ≤ 2 * encLen v + 1 := by
  match v with
  | .vuint n =>
    have := encLen_pos (Val.vuint n)
    show 1 ≤ _
    omega
  | .vbool b =>
    have := encLen_pos (Val.vbool b)
    show 1 ≤ _
    omega
  | .vbytes bs =>
    have := encLen_pos (Val.vbytes bs)
    show 1 ≤ _
    omega
  | .vstr bs =>
    have := encLen_pos (Val.vstr bs)
    show 1 ≤ _
    omega
  | .vlist xs =>
    show 1 + needElemsV xs ≤ _
    have h1 := needElemsV_le xs
    by_cases hne : xs.length = 0
    · match xs with
      | [] =>
        rw [encLen_list_nil]
        show 1 + 2 ≤ 3
        omega
      | x :: t => simp at hne
    · rw [encLen_list_ne xs hne]
      have h2 := headsize_pos (encLenList xs)
      omega
  | .vstruct xs =>
    show 1 + needFieldsV xs ≤ _
    have h1 := needFieldsV_le xs
    rw [encLen_struct]
    have h2 := headsize_pos (encLenList xs)
    omega

theorem needElemsV_le (xs : List Val) : needElemsV xs ≤ 2 * encLenList xs + 2 := by
  match xs with
  | [] =>
    show 2 ≤ _
    omega
  | x :: t =>
    show 1 + max (needV x) (needElemsV t) ≤ _
    have h1 := needV_le x
    have h2 := needElemsV_le t
    have h3 := encLen_pos x
    rw [encLenList_cons]
    omega

theorem needFieldsV_le (xs : List Val) : needFieldsV xs ≤ 2 * encLenList xs + 2 := by
  match xs with
  | [] =>
    show 0 ≤ _
    omega
  | x :: t =>
    show 1 + max (needV x) (needFieldsV t) ≤ _
    have h1 := needV_le x
    have h2 := needFieldsV_le t
    have h3 := encLen_pos x
    rw [encLenList_cons]
    omega

end

theorem canRead_zero (s : Stream) : CanRead s 0 :=
  ⟨fun _ => Nat.zero_le _, fun _ _ _ => Nat.zero_le _⟩

theorem canRead_mono {s : Stream} {m n : Nat} (hmn : m ≤ n)
    (h : CanRead s n) : CanRead s m :=
  ⟨fun hl => le_trans hmn (h.1 hl), fun L t ht => le_trans hmn (h.2 L t ht)⟩

theorem consumed_trans {s s₁ s₂ : Stream} {m n : Nat}
    (h₁ : Consumed s m s₁) (h₂ : Consumed s₁ n s₂) :
    Consumed s (m + n) s₂ := by
  obtain ⟨hr1, hl1, hrem1, hstk1, hsc1⟩ := h₁
  obtain ⟨hr2, hl2, hrem2, hstk2, hsc2⟩ := h₂
  refine ⟨?_, ?_, ?_, ?_, hsc2⟩
  · rw [hr2, hr1, List.drop_drop]
  · rw [hl2, hl1]
  · rw [hrem2, hrem1, hl1]
    cases hl : s.limited
    · simp
    · simp [Nat.sub_sub]
  · rw [hstk2, hstk1]
    cases hstk : s.stack
    · rfl
    · dsimp only
      congr 1
      omega

theorem consumed_zero (s : Stream) (hsc : s.scache = none) :
    Consumed s 0 s := by
  refine ⟨(List.drop_zero s.r).symm, rfl, ?_, ?_, hsc⟩
  · cases hl : s.limited
    · simp
    · simp
  · cases hstk : s.stack
    · rfl
    · dsimp only
      rw [Nat.sub_zero]

theorem canRead_after {s s' : Stream} {m n : Nat} (hc : Consumed s m s')
    (h : CanRead s (m + n)) : CanRead s' n := by
  obtain ⟨hr, hl, hrem, hstk, -⟩ := hc
  constructor
  · intro hl'
    rw [hl] at hl'
    rw [hrem, hl', if_pos rfl]
    have := h.1 hl'
    omega
  · intro L t ht
    rw [hstk] at ht
    match hstk0 : s.stack with
    | [] =>
      rw [hstk0] at ht
      exact absurd ht (by simp)
    | M :: t0 =>
      rw [hstk0] at ht
      dsimp only at ht
      have h2 := h.2 M t0 hstk0
      have hLM : L = M - m := by
        injection ht with h3 h4
        omega
      omega

theorem consumed_lit (s : Stream) (n : Nat) (bv : Nat) :
    Consumed s n ⟨s.r.drop n,
      if s.limited then s.remaining - n else s.remaining, s.limited,
      dropStack s.stack n, none, bv⟩ := by
  refine ⟨rfl, rfl, rfl, ?_, rfl⟩
  cases s.stack
  · rfl
  · rfl

theorem willRead_go (s : Stream) (n : Nat) (hcr : CanRead s n) :
    s.willRead n = .ok ⟨s.r,
      if s.limited then s.remaining - n else s.remaining, s.limited,
      dropStack s.stack n, none, s.byteval⟩ := by
  match hstk : s.stack with
  | [] =>
    rw [willRead_nil s n hstk, dropStack_nil]
    cases hl : s.limited
    · rw [if_neg (by simp), if_neg (by simp), hstk]
    · have hle := hcr.1 hl
      rw [if_pos rfl, if_neg (by omega), if_pos rfl, hstk]
  | L :: t =>
    have hnL := hcr.2 L t hstk
    rw [willRead_cons s n L t hstk, dropStack_cons, if_neg (by omega)]
    cases hl : s.limited
    · rw [if_neg (by simp), if_neg (by simp)]
    · have hle := hcr.1 hl
      rw [if_pos rfl, if_neg (by omega), if_pos rfl]

theorem readByte_go (s : Stream) (b : Nat) (rest : List Nat)
    (hcr : CanRead s 1) (hr : s.r = b :: rest) :
    s.readByte = .ok (b, ⟨rest,
      if s.limited then s.remaining - 1 else s.remaining, s.limited,
      dropStack s.stack 1, none, s.byteval⟩) := by
  unfold Stream.readByte
  simp only [bind]
  rw [willRead_go s 1 hcr]
  dsimp only [Except.bind]
  rw [hr]

theorem readFull_go (s : Stream) (n : Nat) (hcr : CanRead s n)
    (hlen : n ≤ s.r.length) :
    s.readFull n = .ok (s.r.take n, ⟨s.r.drop n,
      if s.limited then s.remaining - n else s.remaining, s.limited,
      dropStack s.stack n, none, s.byteval⟩) := by
  unfold Stream.readFull
  simp only [bind]
  rw [willRead_go s n hcr]
  dsimp only [Except.bind]
  rw [if_pos hlen]

theorem dropStack_add (st : List Nat) (m n : Nat) :
    dropStack (dropStack st m) n = dropStack st (m + n) := by
  cases st
  · rfl
  · simp [dropStack, Nat.sub_sub]

theorem Kind_eol (s : Stream) (hsc : s.scache = none)
    (hst : s.stack.head? = some 0) : s.Kind = .error .eol := by
  unfold Stream.Kind
  rw [hsc, hst]

theorem uint_eol (s : Stream) (mb : Nat) (hsc : s.scache = none)
    (hst : s.stack.head? = some 0) : s.uint mb = .error .eol := by
  unfold Stream.uint
  simp only [bind]
  rw [Kind_eol s hsc hst]
  rfl

theorem Bool_eol (s : Stream) (hsc : s.scache = none)
    (hst : s.stack.head? = some 0) : s.Bool = .error .eol := by
  unfold Stream.Bool
  simp only [bind]
  rw [uint_eol s 8 hsc hst]
  rfl

theorem Bytes_eol (s : Stream) (hsc : s.scache = none)
    (hst : s.stack.head? = some 0) : s.Bytes = .error .eol := by
  unfold Stream.Bytes
  simp only [bind]
  rw [Kind_eol s hsc hst]
  rfl

theorem List_eol (s : Stream) (hsc : s.scache = none)
    (hst : s.stack.head? = some 0) : s.List = .error .eol := by
  unfold Stream.List
  simp only [bind]
  rw [Kind_eol s hsc hst]
  rfl

theorem decodeTy_eol (fuel : Nat) (t : Ty) (s : Stream) (hsc : s.scache = none)
    (hst : s.stack.head? = some 0) : decodeTy (fuel + 1) t s = .error .eol := by
  match t with
  | .tuint =>
    unfold decodeTy
    rw [uint_eol s 64 hsc hst]
  | .tbool =>
    unfold decodeTy
    rw [Bool_eol s hsc hst]
  | .tbytes =>
    unfold decodeTy
    rw [Bytes_eol s hsc hst]
  | .tstr =>
    unfold decodeTy
    rw [Bytes_eol s hsc hst]
  | .tlist e =>
    unfold decodeTy
    rw [List_eol s hsc hst]
  | .tstruct ts =>
    unfold decodeTy
    rw [List_eol s hsc hst]

theorem putint_lt256 (i : Nat) (h : i < 256) : putint i = [i] := by
  unfold putint
  have h8 : (1 : Nat) <<< 8 = 256 := by norm_num [Nat.shiftLeft_eq]
  rw [h8, if_pos h, Nat.mod_eq_of_lt h]

theorem putint_len2 (i : Nat) (h : 256 ≤ i) : 2 ≤ (putint i).length := by
  unfold putint
  have h8 : (1 : Nat) <<< 8 = 256 := by norm_num [Nat.shiftLeft_eq]
  rw [h8, if_neg (by omega)]
  repeat' split
  all_goals simp

theorem canRead_lit (s : Stream) (k n : Nat) (hcr : CanRead s (k + n))
    (r' : List Nat) (sc : Option (Kind × Nat)) (bv : Nat) :
    CanRead (⟨r', if s.limited then s.remaining - k else s.remaining,
      s.limited, dropStack s.stack k, sc, bv⟩ : Stream) n := by
  constructor
  · intro hl
    dsimp only at hl ⊢
    rw [hl, if_pos rfl]
    have := hcr.1 hl
    omega
  · intro L t ht
    dsimp only at ht
    match hstk : s.stack with
    | [] =>
      rw [hstk, dropStack_nil] at ht
      exact absurd ht (by simp)
    | M :: t0 =>
      rw [hstk, dropStack_cons] at ht
      have h2 := hcr.2 M t0 hstk
      injection ht with h3 h4
      omega

theorem readUint_putint (s : Stream) (L : Nat) (rest : List Nat)
    (h56 : 56 ≤ L) (hlt : L < 2 ^ 64) (hr : s.r = putint L ++ rest)
    (hcr : CanRead s (putint L).length) :
    s.readUint (putint L).length = .ok (L, ⟨rest,
      if s.limited then s.remaining - (putint L).length else s.remaining,
      s.limited, dropStack s.stack (putint L).length, none, s.byteval⟩) := by
  have hpos := putint_pos L
  match hk : (putint L).length with
  | 0 => omega
  | 1 =>
    have hlt256 : L < 256 := by
      by_contra hge
      have := putint_len2 L (by omega)
      omega
    have hput : putint L = [L] := putint_lt256 L hlt256
    rw [hput] at hr
    show s.readByte = _
    exact readByte_go s L rest (hk ▸ hcr) hr
  | m + 2 =>
    have hk2 : (putint L).length = m + 2 := by omega
    have h256 : 256 ≤ L := by
      by_contra hlt2
      rw [putint_lt256 L (by omega)] at hk2
      simp at hk2
    have hlen : m + 2 ≤ s.r.length := by
      rw [hr, List.length_append, hk2]
      omega
    have hcr2 : CanRead s (m + 2) := hk2 ▸ hcr
    unfold Stream.readUint
    dsimp only
    simp only [bind]
    rw [readFull_go s (m + 2) hcr2 hlen]
    dsimp only [Except.bind]
    have htake : s.r.take (m + 2) = putint L := by
      rw [hr, ← hk2, List.take_left]
    have hdrop : s.r.drop (m + 2) = rest := by
      rw [hr, ← hk2, List.drop_left]
    rw [htake, hdrop, if_neg (putint_head_ne L h256 hlt), beUint_putint L hlt]

theorem readKind_byte (s : Stream) (b : Nat) (rest : List Nat)
    (hb : b < 0x80) (hr : s.r = b :: rest) (hcr : CanRead s 1) :
    s.readKind = .ok (.Byte, 0, ⟨rest,
      if s.limited then s.remaining - 1 else s.remaining, s.limited,
      dropStack s.stack 1, none, b⟩) := by
  unfold Stream.readKind
  rw [readByte_go s b rest hcr hr]
  dsimp only
  rw [if_pos hb]

theorem readKind_shortstr (s : Stream) (b : Nat) (rest : List Nat)
    (hb1 : 0x80 ≤ b) (hb2 : b < 0xB8) (hr : s.r = b :: rest)
    (hcr : CanRead s 1) :
    s.readKind = .ok (.Str, b - 0x80, ⟨rest,
      if s.limited then s.remaining - 1 else s.remaining, s.limited,
      dropStack s.stack 1, none, 0⟩) := by
  unfold Stream.readKind
  rw [readByte_go s b rest hcr hr]
  dsimp only
  rw [if_neg (by omega), if_pos hb2]

theorem readKind_shortlist (s : Stream) (b : Nat) (rest : List Nat)
    (hb1 : 0xC0 ≤ b) (hb2 : b < 0xF8) (hr : s.r = b :: rest)
    (hcr : CanRead s 1) :
    s.readKind = .ok (.ListK, b - 0xC0, ⟨rest,
      if s.limited then s.remaining - 1 else s.remaining, s.limited,
      dropStack s.stack 1, none, 0⟩) := by
  unfold Stream.readKind
  rw [readByte_go s b rest hcr hr]
  dsimp only
  rw [if_neg (by omega), if_neg (by omega), if_neg (by omega), if_pos hb2]

theorem readKind_longstr (s : Stream) (L : Nat) (rest : List Nat)
    (h56 : 56 ≤ L) (hlt : L < 2 ^ 64)
    (hr : s.r = (0xB7 + (putint L).length) :: (putint L ++ rest))
    (hcr : CanRead s (1 + (putint L).length)) :
    s.readKind = .ok (.Str, L, ⟨rest,
      if s.limited then s.remaining - (1 + (putint L).length) else s.remaining,
      s.limited, dropStack s.stack (1 + (putint L).length), none, 0⟩) := by
  have hp1 := putint_pos L
  have hp8 := putint_le8 L
  unfold Stream.readKind
  rw [readByte_go s _ _ (canRead_mono (by omega) hcr) hr]
  dsimp only
  rw [if_neg (by omega), if_neg (by omega), if_pos (by omega)]
  have harg : 0xB7 + (putint L).length - 0xB7 = (putint L).length := by omega
  rw [harg]
  rw [readUint_putint _ L rest h56 hlt rfl
    (canRead_lit s 1 (putint L).length hcr (putint L ++ rest) none 0)]
  dsimp only
  rw [if_neg (by omega)]
  cases hl : s.limited
  · simp [hl, dropStack_add]
  · simp [hl, Nat.sub_sub, dropStack_add]

theorem readKind_longlist (s : Stream) (L : Nat) (rest : List Nat)
    (h56 : 56 ≤ L) (hlt : L < 2 ^ 64)
    (hr : s.r = (0xF7 + (putint L).length) :: (putint L ++ rest))
    (hcr : CanRead s (1 + (putint L).length)) :
    s.readKind = .ok (.ListK, L, ⟨rest,
      if s.limited then s.remaining - (1 + (putint L).length) else s.remaining,
      s.limited, dropStack s.stack (1 + (putint L).length), none, 0⟩) := by
  have hp1 := putint_pos L
  have hp8 := putint_le8 L
  unfold Stream.readKind
  rw [readByte_go s _ _ (canRead_mono (by omega) hcr) hr]
  dsimp only
  rw [if_neg (by omega), if_neg (by omega), if_neg (by omega), if_neg (by omega)]
  have harg : 0xF7 + (putint L).length - 0xF7 = (putint L).length := by omega
  rw [harg]
  rw [readUint_putint _ L rest h56 hlt rfl
    (canRead_lit s 1 (putint L).length hcr (putint L ++ rest) none 0)]
  dsimp only
  rw [if_neg (by omega)]
  cases hl : s.limited
  · simp [hl, dropStack_add]
  · simp [hl, Nat.sub_sub, dropStack_add]

theorem Kind_go (s : Stream) (k sz : Nat) (knd : Kind) (s' : Stream)
    (hsc : s.scache = none) (hcr : CanRead s (k + sz)) (hk : 1 ≤ k)
    (hrk : s.readKind = .ok (knd, sz, s'))
    (hlim : s'.limited = s.limited)
    (hrem : s'.remaining = if s.limited then s.remaining - k else s.remaining) :
    s.Kind = .ok (knd, sz, { s' with scache := some (knd, sz) }) := by
  unfold Stream.Kind
  rw [hsc]
  match hstk : s.stack with
  | [] =>
    dsimp only
    simp only [List.head?_nil]
    rw [hrk]
    dsimp only
    rw [if_neg (by simp)]
    cases hl : s.limited
    · rw [if_neg (by simp [hlim, hl])]
    · have h1 := hcr.1 hl
      rw [if_neg ?hneg]
      case hneg =>
        rw [hlim, hl, hrem, hl, if_pos rfl]
        simp only [Bool.true_and, decide_eq_true_eq]
        omega
  | M :: t =>
    match M with
    | 0 =>
      have := hcr.2 0 t hstk
      omega
    | M + 1 =>
      dsimp only
      simp only [List.head?_cons]
      have h2 := hcr.2 (M + 1) t hstk
      rw [hrk]
      dsimp only
      rw [if_neg ?hneg1]
      case hneg1 =>
        simp only [Option.isSome_some, Bool.true_and, Option.getD_some,
          decide_eq_true_eq]
        omega
      cases hl : s.limited
      · rw [if_neg (by simp [hlim, hl])]
      · have h1 := hcr.1 hl
        rw [if_neg ?hneg2]
        case hneg2 =>
          rw [hlim, hl, hrem, hl, if_pos rfl]
          simp only [Bool.true_and, decide_eq_true_eq]
          omega

theorem consumed_mk (s : Stream) (n : Nat) (r' : List Nat) (bv : Nat)
    (hr : r' = s.r.drop n) :
    Consumed s n ⟨r', if s.limited then s.remaining - n else s.remaining,
      s.limited, dropStack s.stack n, none, bv⟩ := by
  refine ⟨hr, rfl, rfl, ?_, rfl⟩
  cases s.stack
  · rfl
  · rfl

theorem ListEnd_zero (s : Stream) (t : List Nat) (hstk : s.stack = 0 :: t) :
    s.ListEnd = .ok ⟨s.r, s.remaining, s.limited, t, none, s.byteval⟩ := by
  unfold Stream.ListEnd
  rw [hstk]
  dsimp only
  rw [if_neg (by omega)]

theorem uint64_spec (s : Stream) (n : Nat) (rest : List Nat)
    (hn : n < 2 ^ 64) (hsc : s.scache = none)
    (hr : s.r = writeUint64 n ++ rest)
    (hcr : CanRead s (writeUint64 n).length) :
    ∃ s', s.uint 64 = .ok (n, s') ∧ Consumed s (writeUint64 n).length s' := by
  by_cases h0 : n = 0
  · subst h0
    have he : writeUint64 0 = [0x80] := rfl
    rw [he] at hr hcr ⊢
    simp only [List.length_singleton] at hcr ⊢
    have hrk := readKind_shortstr s 0x80 rest (by omega) (by omega) hr hcr
    have hK := Kind_go s 1 (0x80 - 0x80) .Str _ hsc
      (canRead_mono (by omega) hcr) (by omega) hrk rfl rfl
    refine ⟨⟨rest, if s.limited then s.remaining - 1 else s.remaining,
      s.limited, dropStack s.stack 1, none, 0⟩, ?_, ?_⟩
    · unfold Stream.uint
      simp only [bind]
      rw [hK]
      dsimp only [Except.bind]
      rfl
    · exact consumed_mk s 1 rest 0 (by simp [hr])
  · by_cases h128 : n < 128
    · have he : writeUint64 n = [n] := by
        unfold writeUint64
        rw [if_neg h0, if_pos h128]
      rw [he] at hr hcr ⊢
      simp only [List.length_singleton] at hcr ⊢
      have hrk := readKind_byte s n rest (by omega) hr hcr
      have hK := Kind_go s 1 0 .Byte _ hsc
        (canRead_mono (by omega) hcr) (by omega) hrk rfl rfl
      refine ⟨⟨rest, if s.limited then s.remaining - 1 else s.remaining,
        s.limited, dropStack s.stack 1, none, n⟩, ?_, ?_⟩
      · unfold Stream.uint
        simp only [bind]
        rw [hK]
        dsimp only [Except.bind]
        rw [if_neg (by omega)]
      · exact consumed_mk s 1 rest n (by simp [hr])
    · have he : writeUint64 n = (0x80 + (putint n).length) :: putint n := by
        unfold writeUint64
        rw [if_neg h0, if_neg (by omega)]
      have hp1 := putint_pos n
      have hp8 := putint_le8 n
      have hlen : (writeUint64 n).length = 1 + (putint n).length := by
        rw [he, List.length_cons]
        omega
      rw [hlen] at hcr ⊢
      have hr2 : s.r = (0x80 + (putint n).length) :: (putint n ++ rest) := by
        rw [hr, he]
        rfl
      have hrk := readKind_shortstr s (0x80 + (putint n).length)
        (putint n ++ rest) (by omega) (by omega) hr2
        (canRead_mono (by omega) hcr)
      have harg : 0x80 + (putint n).length - 0x80 = (putint n).length := by
        omega
      rw [harg] at hrk
      have hK := Kind_go s 1 (putint n).length .Str _ hsc
        (canRead_mono (by omega) hcr) (by omega) hrk rfl rfl
      have hru := readUint_putint
        (⟨putint n ++ rest,
          if s.limited then s.remaining - 1 else s.remaining, s.limited,
          dropStack s.stack 1, some (.Str, (putint n).length), 0⟩ : Stream)
        n rest (by omega) hn rfl
        (canRead_lit s 1 (putint n).length hcr (putint n ++ rest)
          (some (.Str, (putint n).length)) 0)
      refine ⟨⟨rest,
        if s.limited then
          (if s.limited then s.remaining - 1 else s.remaining) -
            (putint n).length
        else (if s.limited then s.remaining - 1 else s.remaining),
        s.limited, dropStack (dropStack s.stack 1) (putint n).length,
        none, 0⟩, ?_, ?_⟩
      · unfold Stream.uint
        simp only [bind]
        rw [hK]
        dsimp only [Except.bind]
        rw [if_neg (by omega)]
        rw [hru]
        dsimp only
        rw [if_neg (by simp; omega)]
      · dsimp only
        refine ⟨?_, rfl, ?_, ?_, rfl⟩
        · rw [hr2, Nat.add_comm 1 (putint n).length, List.drop_succ_cons,
            List.drop_left]
        · dsimp only
          cases hl : s.limited
          · simp [hl]
          · simp [hl, Nat.sub_sub]
        · rw [dropStack_add]
          cases s.stack
          · rfl
          · rfl

theorem Bool_spec (s : Stream) (b : Bool) (rest : List Nat)
    (hsc : s.scache = none) (hr : s.r = writeBool b ++ rest)
    (hcr : CanRead s 1) :
    ∃ s', s.Bool = .ok (b, s') ∧ Consumed s 1 s' := by
  cases b
  · have he : writeBool false = [0x80] := rfl
    rw [he] at hr
    have hrk := readKind_shortstr s 0x80 rest (by omega) (by omega) hr hcr
    have hK := Kind_go s 1 (0x80 - 0x80) .Str _ hsc
      (canRead_mono (by omega) hcr) (by omega) hrk rfl rfl
    refine ⟨⟨rest, if s.limited then s.remaining - 1 else s.remaining,
      s.limited, dropStack s.stack 1, none, 0⟩, ?_, ?_⟩
    · unfold Stream.Bool Stream.uint
      simp only [bind]
      rw [hK]
      dsimp only [Except.bind]
      rfl
    · exact consumed_mk s 1 rest 0 (by simp [hr])
  · have he : writeBool true = [0x01] := rfl
    rw [he] at hr
    have hrk := readKind_byte s 0x01 rest (by omega) hr hcr
    have hK := Kind_go s 1 0 .Byte _ hsc
      (canRead_mono (by omega) hcr) (by omega) hrk rfl rfl
    refine ⟨⟨rest, if s.limited then s.remaining - 1 else s.remaining,
      s.limited, dropStack s.stack 1, none, 1⟩, ?_, ?_⟩
    · unfold Stream.Bool Stream.uint
      simp only [bind]
      rw [hK]
      dsimp only [Except.bind]
      rfl
    · exact consumed_mk s 1 rest 1 (by simp [hr])

theorem encodeStringHeader_length (L : Nat) (h : L < 2 ^ 64) :
    (encodeStringHeader L).length = headsize L := by
  show (puthead 0x80 0xB7 L).length = _
  exact puthead_length 0x80 0xB7 L h

theorem Bytes_header_spec (s : Stream) (bs rest : List Nat)
    (hwfl : bs.length < 2 ^ 64)
    (hcanon : ¬(bs.length = 1 ∧ bs.headD 0 < 128))
    (hsc : s.scache = none)
    (hr : s.r = (encodeStringHeader bs.length ++ bs) ++ rest)
    (hcr : CanRead s (headsize bs.length + bs.length)) :
    ∃ s', s.Bytes = .ok (bs, s') ∧
      Consumed s (headsize bs.length + bs.length) s' := by
  by_cases h56 : bs.length < 56
  · have hhs : headsize bs.length = 1 := by
      unfold headsize
      rw [if_pos h56]
    have hes : encodeStringHeader bs.length = [0x80 + bs.length] := by
      unfold encodeStringHeader
      rw [if_pos h56]
    have hr2 : s.r = (0x80 + bs.length) :: (bs ++ rest) := by
      rw [hr, hes]
      simp
    rw [hhs] at hcr ⊢
    have hrk := readKind_shortstr s (0x80 + bs.length) (bs ++ rest)
      (by omega) (by omega) hr2 (canRead_mono (by omega) hcr)
    have harg : 0x80 + bs.length - 0x80 = bs.length := by omega
    rw [harg] at hrk
    have hK := Kind_go s 1 bs.length .Str _ hsc hcr (by omega) hrk rfl rfl
    refine ⟨⟨rest,
      if s.limited then
        (if s.limited then s.remaining - 1 else s.remaining) - bs.length
      else (if s.limited then s.remaining - 1 else s.remaining),
      s.limited, dropStack (dropStack s.stack 1) bs.length, none, 0⟩, ?_, ?_⟩
    · unfold Stream.Bytes
      simp only [bind]
      rw [hK]
      dsimp only [Except.bind]
      rw [readFull_go _ bs.length
        (canRead_lit s 1 bs.length hcr (bs ++ rest)
          (some (.Str, bs.length)) 0)
        (by dsimp only; rw [List.length_append]; omega)]
      dsimp only [Except.bind]
      rw [List.take_left, List.drop_left]
      rw [if_neg ?hc]
      case hc =>
        simp only [Bool.and_eq_true, decide_eq_true_eq]
        exact fun h => hcanon ⟨h.1, h.2⟩
    · refine ⟨?_, rfl, ?_, ?_, rfl⟩
      · rw [hr2, Nat.add_comm 1 bs.length, List.drop_succ_cons,
          List.drop_left]
      · cases hl : s.limited
        · simp [hl]
        · simp [hl, Nat.sub_sub]
      · rw [dropStack_add]
        cases s.stack
        · rfl
        · rfl
  · have hplen := putint_length bs.length hwfl
    have hhs : headsize bs.length = 1 + (putint bs.length).length := by
      unfold headsize
      rw [if_neg h56, hplen]
    have hes : encodeStringHeader bs.length =
        (0xB7 + (putint bs.length).length) :: putint bs.length := by
      unfold encodeStringHeader
      rw [if_neg h56]
    have hr2 : s.r = (0xB7 + (putint bs.length).length) ::
        (putint bs.length ++ (bs ++ rest)) := by
      rw [hr, hes]
      simp [List.append_assoc]
    rw [hhs] at hcr ⊢
    have hrk := readKind_longstr s bs.length (bs ++ rest)
      (by omega) hwfl hr2 (canRead_mono (by omega) hcr)
    have hK := Kind_go s (1 + (putint bs.length).length) bs.length .Str _
      hsc hcr (by omega) hrk rfl rfl
    refine ⟨⟨rest,
      if s.limited then
        (if s.limited then
          s.remaining - (1 + (putint bs.length).length)
        else s.remaining) - bs.length
      else (if s.limited then
        s.remaining - (1 + (putint bs.length).length)
      else s.remaining),
      s.limited,
      dropStack (dropStack s.stack (1 + (putint bs.length).length))
        bs.length, none, 0⟩, ?_, ?_⟩
    · unfold Stream.Bytes
      simp only [bind]
      rw [hK]
      dsimp only [Except.bind]
      rw [readFull_go _ bs.length
        (canRead_lit s (1 + (putint bs.length).length) bs.length hcr
          (bs ++ rest) (some (.Str, bs.length)) 0)
        (by dsimp only; rw [List.length_append]; omega)]
      dsimp only [Except.bind]
      rw [List.take_left, List.drop_left]
      rw [if_neg ?hc2]
      case hc2 =>
        simp only [Bool.and_eq_true, decide_eq_true_eq]
        exact fun h => hcanon ⟨h.1, h.2⟩
    · refine ⟨?_, rfl, ?_, ?_, rfl⟩
      · rw [hr2, show 1 + (putint bs.length).length + bs.length =
          ((putint bs.length).length + bs.length) + 1 from by omega,
          List.drop_succ_cons, ← List.drop_drop, List.drop_left,
          List.drop_left]
      · cases hl : s.limited
        · simp [hl]
        · simp [hl, Nat.sub_sub]
      · rw [dropStack_add]
        cases s.stack
        · rfl
        · rfl

theorem Bytes_spec (s : Stream) (bs rest : List Nat)
    (hwfa : ∀ x ∈ bs, x < 256) (hwfl : bs.length < 2 ^ 64)
    (hsc : s.scache = none) (hr : s.r = writeBytes bs ++ rest)
    (hcr : CanRead s (writeBytes bs).length) :
    ∃ s', s.Bytes = .ok (bs, s') ∧ Consumed s (writeBytes bs).length s' := by
  match bs with
  | [x] =>
    by_cases hx : x ≤ 0x7F
    · have he : writeBytes [x] = [x] := by
        show (if x ≤ 0x7F then [x] else encodeStringHeader 1 ++ [x]) = [x]
        rw [if_pos hx]
      rw [he] at hr hcr ⊢
      simp only [List.length_singleton] at hcr ⊢
      have hrk := readKind_byte s x rest (by omega) hr hcr
      have hK := Kind_go s 1 0 .Byte _ hsc
        (canRead_mono (by omega) hcr) (by omega) hrk rfl rfl
      refine ⟨⟨rest, if s.limited then s.remaining - 1 else s.remaining,
        s.limited, dropStack s.stack 1, none, x⟩, ?_,
        consumed_mk s 1 rest x (by simp [hr])⟩
      unfold Stream.Bytes
      simp only [bind]
      rw [hK]
      dsimp only [Except.bind]
    · have hwb : writeBytes [x] = encodeStringHeader ([x] : List Nat).length ++ [x] := by
        show (if x ≤ 0x7F then [x] else encodeStringHeader 1 ++ [x]) = _
        rw [if_neg hx]
        rfl
      have hwblen : (writeBytes [x]).length =
          headsize ([x] : List Nat).length + ([x] : List Nat).length := by
        rw [hwb, List.length_append, encodeStringHeader_length _ (by simp)]
      rw [hwb] at hr
      rw [hwblen] at hcr ⊢
      exact Bytes_header_spec s [x] rest (by simp)
        (by simp; omega) hsc hr hcr
  | [] =>
    have hwb : writeBytes [] = encodeStringHeader ([] : List Nat).length ++ [] := rfl
    have hwblen : (writeBytes ([] : List Nat)).length =
        headsize ([] : List Nat).length + ([] : List Nat).length := by
      rw [hwb, List.length_append, encodeStringHeader_length _ (by simp)]
    rw [hwb] at hr
    rw [hwblen] at hcr ⊢
    exact Bytes_header_spec s [] rest (by simp) (by simp) hsc hr hcr
  | a :: b :: t =>
    have hwb : writeBytes (a :: b :: t) =
        encodeStringHeader (a :: b :: t).length ++ (a :: b :: t) := rfl
    have hwblen : (writeBytes (a :: b :: t)).length =
        headsize (a :: b :: t).length + (a :: b :: t).length := by
      rw [hwb, List.length_append, encodeStringHeader_length _ hwfl]
    rw [hwb] at hr
    rw [hwblen] at hcr ⊢
    exact Bytes_header_spec s (a :: b :: t) rest hwfl
      (by simp) hsc hr hcr

theorem writeBool_length (b : Bool) : (writeBool b).length = 1 := by
  cases b
  · rfl
  · rfl

theorem writeString_eq (bs : List Nat) : writeString bs = writeBytes bs := rfl

theorem needV_pos (v : Val) : 1 ≤ needV v := by
  cases v
  all_goals unfold needV
  all_goals omega

theorem needElemsV_pos (xs : List Val) : 1 ≤ needElemsV xs := by
  cases xs
  all_goals unfold needElemsV
  all_goals omega

theorem List_go (s : Stream) (L : Nat) (rest : List Nat)
    (hsc : s.scache = none) (hlt : L < 2 ^ 64)
    (htop : ∀ M t0, s.stack = M :: t0 → M < 2 ^ 64)
    (hr : s.r = puthead 0xC0 0xF7 L ++ rest)
    (hcr : CanRead s (headsize L + L)) :
    s.List = .ok (L, ⟨rest,
      if s.limited then s.remaining - headsize L else s.remaining, s.limited,
      L :: dropStack s.stack (headsize L + L), none, 0⟩) := by
  by_cases h56 : L < 56
  · have hhs : headsize L = 1 := by
      unfold headsize
      rw [if_pos h56]
    have hph : puthead 0xC0 0xF7 L = [0xC0 + L] := by
      unfold puthead
      rw [if_pos h56]
    have hr2 : s.r = (0xC0 + L) :: rest := by
      rw [hr, hph]
      rfl
    rw [hhs] at hcr ⊢
    have hrk := readKind_shortlist s (0xC0 + L) rest (by omega) (by omega)
      hr2 (canRead_mono (by omega) hcr)
    have harg : 0xC0 + L - 0xC0 = L := by omega
    rw [harg] at hrk
    have hK := Kind_go s 1 L .ListK _ hsc hcr (by omega) hrk rfl rfl
    unfold Stream.List
    simp only [bind]
    rw [hK]
    dsimp only [Except.bind]
    cases hstk : s.stack with
    | nil => simp [dropStack]
    | cons M t0 =>
      have hM := htop M t0 hstk
      have hML := hcr.2 M t0 hstk
      simp [dropStack]
      omega
  · have hplen := putint_length L hlt
    have hhs : headsize L = 1 + (putint L).length := by
      unfold headsize
      rw [if_neg h56, hplen]
    have hph : puthead 0xC0 0xF7 L =
        (0xF7 + (putint L).length) :: putint L := by
      unfold puthead
      rw [if_neg h56]
    have hr2 : s.r = (0xF7 + (putint L).length) :: (putint L ++ rest) := by
      rw [hr, hph]
      rfl
    rw [hhs] at hcr ⊢
    have hrk := readKind_longlist s L rest (by omega) hlt hr2
      (canRead_mono (by omega) hcr)
    have hK := Kind_go s (1 + (putint L).length) L .ListK _ hsc hcr
      (by omega) hrk rfl rfl
    unfold Stream.List
    simp only [bind]
    rw [hK]
    dsimp only [Except.bind]
    cases hstk : s.stack with
    | nil => simp [dropStack]
    | cons M t0 =>
      have hM := htop M t0 hstk
      have hML := hcr.2 M t0 hstk
      simp [dropStack]
      omega

theorem hasTy_uintE {v : Val} (h : hasTy v .tuint = true) : ∃ n, v = .vuint n := by
  match v with
  | .vuint n => exact ⟨n, rfl⟩
  | .vbool b => simp [hasTy] at h
  | .vbytes bs => simp [hasTy] at h
  | .vstr bs => simp [hasTy] at h
  | .vlist xs => simp [hasTy] at h
  | .vstruct xs => simp [hasTy] at h

theorem hasTy_boolE {v : Val} (h : hasTy v .tbool = true) : ∃ b, v = .vbool b := by
  match v with
  | .vuint n => simp [hasTy] at h
  | .vbool b => exact ⟨b, rfl⟩
  | .vbytes bs => simp [hasTy] at h
  | .vstr bs => simp [hasTy] at h
  | .vlist xs => simp [hasTy] at h
  | .vstruct xs => simp [hasTy] at h

theorem hasTy_bytesE {v : Val} (h : hasTy v .tbytes = true) :
    ∃ bs, v = .vbytes bs := by
  match v with
  | .vuint n => simp [hasTy] at h
  | .vbool b => simp [hasTy] at h
  | .vbytes bs => exact ⟨bs, rfl⟩
  | .vstr bs => simp [hasTy] at h
  | .vlist xs => simp [hasTy] at h
  | .vstruct xs => simp [hasTy] at h

theorem hasTy_strE {v : Val} (h : hasTy v .tstr = true) : ∃ bs, v = .vstr bs := by
  match v with
  | .vuint n => simp [hasTy] at h
  | .vbool b => simp [hasTy] at h
  | .vbytes bs => simp [hasTy] at h
  | .vstr bs => exact ⟨bs, rfl⟩
  | .vlist xs => simp [hasTy] at h
  | .vstruct xs => simp [hasTy] at h

theorem hasTy_listE {v : Val} {e : Ty} (h : hasTy v (.tlist e) = true) :
    ∃ xs, v = .vlist xs ∧ hasTyList xs e = true := by
  match v with
  | .vuint n => simp [hasTy] at h
  | .vbool b => simp [hasTy] at h
  | .vbytes bs => simp [hasTy] at h
  | .vstr bs => simp [hasTy] at h
  | .vlist xs => exact ⟨xs, rfl, h⟩
  | .vstruct xs => simp [hasTy] at h

theorem hasTy_structE {v : Val} {ts : List Ty} (h : hasTy v (.tstruct ts) = true) :
    ∃ xs, v = .vstruct xs ∧ hasTyFields xs ts = true := by
  match v with
  | .vuint n => simp [hasTy] at h
  | .vbool b => simp [hasTy] at h
  | .vbytes bs => simp [hasTy] at h
  | .vstr bs => simp [hasTy] at h
  | .vlist xs => simp [hasTy] at h
  | .vstruct xs => exact ⟨xs, rfl, h⟩

/-- Consuming input preserves the `uint64` bound on the innermost list
counter (the charge only ever decreases it). -/
theorem htop_after {s s₁ : Stream} {n : Nat} (hc : Consumed s n s₁)
    (htop : ∀ M t0, s.stack = M :: t0 → M < 2 ^ 64) :
    ∀ M t0, s₁.stack = M :: t0 → M < 2 ^ 64 := by
  intro M t0 h
  have h3 := hc.2.2.2.1
  match hstk0 : s.stack with
  | [] =>
    rw [hstk0] at h3
    dsimp only at h3
    rw [h3] at h
    exact absurd h (by simp)
  | M0 :: t00 =>
    rw [hstk0] at h3
    dsimp only at h3
    rw [h3] at h
    injection h with h1 h2
    have := htop M0 t00 hstk0
    omega

mutual

/-- Running the embedded decoder of decode.go on the embedded encoder's
output yields the original value and consumes exactly its encoding. -/
theorem decodeTy_enc (fuel : Nat) (v : Val) (t : Ty) (s : Stream)
    (rest : List Nat)
    (hty : hasTy v t = true) (hwf : wfVal v = true)
    (hfuel : needV v ≤ fuel) (hsc : s.scache = none)
    (htop : ∀ M t0, s.stack = M :: t0 → M < 2 ^ 64)
    (hr : s.r = EncodeToBytes v ++ rest) (hcr : CanRead s (encLen v)) :
    ∃ s', decodeTy fuel t s = .ok (v, s') ∧ Consumed s (encLen v) s' := by
  match fuel with
  | 0 =>
    have := needV_pos v
    omega
  | f + 1 =>
    match t with
    | .tuint =>
      obtain ⟨n, rfl⟩ := hasTy_uintE hty
      have hn : n < 2 ^ 64 := by
        unfold wfVal at hwf
        exact of_decide_eq_true hwf
      rw [encodeToBytes_uint] at hr
      rw [encLen_uint] at hcr ⊢
      obtain ⟨s₁, hop, hcons⟩ := uint64_spec s n rest hn hsc hr hcr
      refine ⟨s₁, ?_, hcons⟩
      unfold decodeTy
      rw [hop]
    | .tbool =>
      obtain ⟨b, rfl⟩ := hasTy_boolE hty
      rw [encodeToBytes_bool] at hr
      rw [encLen_bool, writeBool_length] at hcr ⊢
      obtain ⟨s₁, hop, hcons⟩ := Bool_spec s b rest hsc hr hcr
      refine ⟨s₁, ?_, hcons⟩
      unfold decodeTy
      rw [hop]
    | .tbytes =>
      obtain ⟨bs, rfl⟩ := hasTy_bytesE hty
      unfold wfVal at hwf
      rw [Bool.and_eq_true, List.all_eq_true] at hwf
      rw [encodeToBytes_bytes] at hr
      rw [encLen_bytes] at hcr ⊢
      obtain ⟨s₁, hop, hcons⟩ := Bytes_spec s bs rest
        (fun x hx => of_decide_eq_true (hwf.1 x hx))
        (of_decide_eq_true hwf.2) hsc hr hcr
      refine ⟨s₁, ?_, hcons⟩
      unfold decodeTy
      rw [hop]
    | .tstr =>
      obtain ⟨bs, rfl⟩ := hasTy_strE hty
      unfold wfVal at hwf
      rw [Bool.and_eq_true, List.all_eq_true] at hwf
      rw [encodeToBytes_str, writeString_eq] at hr
      rw [encLen_str] at hcr ⊢
      obtain ⟨s₁, hop, hcons⟩ := Bytes_spec s bs rest
        (fun x hx => of_decide_eq_true (hwf.1 x hx))
        (of_decide_eq_true hwf.2) hsc hr hcr
      refine ⟨s₁, ?_, hcons⟩
      unfold decodeTy
      rw [hop]
    | .tlist e =>
      obtain ⟨xs, rfl, htyl⟩ := hasTy_listE hty
      match xs with
      | [] =>
        rw [encodeToBytes_list_nil] at hr
        rw [encLen_list_nil] at hcr ⊢
        have hph0 : puthead 0xC0 0xF7 0 = [0xC0] := by
          unfold puthead
          rw [if_pos (by omega)]
        have hr2 : s.r = puthead 0xC0 0xF7 0 ++ rest := by
          rw [hr, hph0]
        have hh0 : headsize 0 = 1 := by
          unfold headsize
          rw [if_pos (by omega)]
        have hcr2 : CanRead s (headsize 0 + 0) :=
          canRead_mono (by omega) hcr
        have hlist := List_go s 0 rest hsc (by norm_num) htop hr2 hcr2
        have hle := ListEnd_zero
          (⟨rest, if s.limited then s.remaining - headsize 0 else s.remaining,
            s.limited, 0 :: dropStack s.stack (headsize 0 + 0), none,
            0⟩ : Stream)
          (dropStack s.stack (headsize 0 + 0)) rfl
        refine ⟨⟨rest,
          if s.limited then s.remaining - headsize 0 else s.remaining,
          s.limited, dropStack s.stack (headsize 0 + 0), none, 0⟩, ?_, ?_⟩
        · unfold decodeTy
          rw [hlist]
          dsimp only
          rw [if_pos rfl, hle]
        · refine ⟨?_, rfl, ?_, ?_, rfl⟩
          · dsimp only
            rw [hr]
            rfl
          · dsimp only
            rw [hh0]
          · dsimp only
            cases s.stack
            · rfl
            · rfl
      | x :: xs' =>
        have hne : (x :: xs').length ≠ 0 := by simp
        unfold wfVal at hwf
        rw [Bool.and_eq_true, decide_eq_true_eq] at hwf
        rw [encodeToBytes_list _ hne, List.append_assoc] at hr
        rw [encLen_list_ne _ hne] at hcr ⊢
        have hlist := List_go s (encLenList (x :: xs'))
          (((x :: xs').map EncodeToBytes).flatten ++ rest) hsc hwf.1 htop
          hr hcr
        have hfe : needElemsV (x :: xs') ≤ f := by
          unfold needV at hfuel
          omega
        have hlim1 : (true = true → s.limited = true) →
            True := fun _ => trivial
        obtain ⟨s₂, helems, hcons2⟩ := decodeElems_enc f (x :: xs') e
          (⟨((x :: xs').map EncodeToBytes).flatten ++ rest,
            if s.limited then
              s.remaining - headsize (encLenList (x :: xs'))
            else s.remaining, s.limited,
            encLenList (x :: xs') ::
              dropStack s.stack
                (headsize (encLenList (x :: xs')) + encLenList (x :: xs')),
            none, 0⟩ : Stream)
          rest
          (dropStack s.stack
            (headsize (encLenList (x :: xs')) + encLenList (x :: xs')))
          htyl hwf.2 hfe rfl
          (by
            intro M t0 h
            injection h with h1 h2
            have := hwf.1
            omega)
          rfl rfl
          (by
            intro hl
            dsimp only at hl ⊢
            rw [hl, if_pos rfl]
            have := hcr.1 hl
            omega)
        have hstk2 : s₂.stack = 0 ::
            dropStack s.stack
              (headsize (encLenList (x :: xs')) + encLenList (x :: xs')) := by
          have h3 := hcons2.2.2.2.1
          dsimp only at h3
          rw [h3, Nat.sub_self]
        have hle := ListEnd_zero s₂ _ hstk2
        refine ⟨⟨s₂.r, s₂.remaining, s₂.limited,
          dropStack s.stack
            (headsize (encLenList (x :: xs')) + encLenList (x :: xs')),
          none, s₂.byteval⟩, ?_, ?_⟩
        · unfold decodeTy
          rw [hlist]
          dsimp only
          rw [if_neg (by have := encLenList_pos x xs'; omega), helems]
          dsimp only
          rw [hle]
        · have hflatlen : (((x :: xs').map EncodeToBytes).flatten).length =
              encLenList (x :: xs') := region_length _ hwf.2
          have hphl : (puthead 0xC0 0xF7 (encLenList (x :: xs'))).length =
              headsize (encLenList (x :: xs')) :=
            puthead_length _ _ _ hwf.1
          refine ⟨?_, ?_, ?_, ?_, rfl⟩
          · dsimp only
            rw [hcons2.1]
            dsimp only
            rw [← List.drop_drop, hr, ← hphl,
              List.drop_left, ← hflatlen, List.drop_left]
          · dsimp only
            rw [hcons2.2.1]
          · dsimp only
            rw [hcons2.2.2.1]
            dsimp only
            cases hl : s.limited
            · simp [hl]
            · simp [hl, Nat.sub_sub]
          · dsimp only
            cases s.stack
            · rfl
            · rfl
    | .tstruct ts =>
      obtain ⟨xs, rfl, htyf⟩ := hasTy_structE hty
      unfold wfVal at hwf
      rw [Bool.and_eq_true, decide_eq_true_eq] at hwf
      rw [encodeToBytes_struct, List.append_assoc] at hr
      rw [encLen_struct] at hcr ⊢
      have hlist := List_go s (encLenList xs)
        ((xs.map EncodeToBytes).flatten ++ rest) hsc hwf.1 htop hr hcr
      have hff : needFieldsV xs ≤ f := by
        unfold needV at hfuel
        omega
      obtain ⟨s₂, hfields, hcons2⟩ := decodeFields_enc f xs ts
        (⟨(xs.map EncodeToBytes).flatten ++ rest,
          if s.limited then s.remaining - headsize (encLenList xs)
          else s.remaining, s.limited,
          encLenList xs ::
            dropStack s.stack (headsize (encLenList xs) + encLenList xs),
          none, 0⟩ : Stream)
        rest htyf hwf.2 hff rfl
        (by
          intro M t0 h
          injection h with h1 h2
          have := hwf.1
          omega)
        rfl
        (by
          constructor
          · intro hl
            dsimp only at hl ⊢
            rw [hl, if_pos rfl]
            have := hcr.1 hl
            omega
          · intro L' t' ht'
            dsimp only at ht'
            injection ht' with h1 h2
            omega)
      have hstk2 : s₂.stack = 0 ::
          dropStack s.stack (headsize (encLenList xs) + encLenList xs) := by
        have h3 := hcons2.2.2.2.1
        dsimp only at h3
        rw [h3, Nat.sub_self]
      have hle := ListEnd_zero s₂ _ hstk2
      refine ⟨⟨s₂.r, s₂.remaining, s₂.limited,
        dropStack s.stack (headsize (encLenList xs) + encLenList xs),
        none, s₂.byteval⟩, ?_, ?_⟩
      · unfold decodeTy
        rw [hlist]
        dsimp only
        rw [hfields]
        dsimp only
        rw [hle]
      · have hflatlen : ((xs.map EncodeToBytes).flatten).length =
            encLenList xs := region_length _ hwf.2
        have hphl : (puthead 0xC0 0xF7 (encLenList xs)).length =
            headsize (encLenList xs) := puthead_length _ _ _ hwf.1
        refine ⟨?_, ?_, ?_, ?_, rfl⟩
        · dsimp only
          rw [hcons2.1]
          dsimp only
          rw [← List.drop_drop, hr, ← hphl, List.drop_left, ← hflatlen,
            List.drop_left]
        · dsimp only
          rw [hcons2.2.1]
        · dsimp only
          rw [hcons2.2.2.1]
          dsimp only
          cases hl : s.limited
          · simp [hl]
          · simp [hl, Nat.sub_sub]
        · dsimp only
          cases s.stack
          · rfl
          · rfl

/-- The element loop of `decodeSliceElems` decodes exactly the encoded
elements and stops at the end of the enclosing list. -/
theorem decodeElems_enc (fuel : Nat) (xs : List Val) (e : Ty) (s : Stream)
    (rest tl : List Nat)
    (hty : hasTyList xs e = true) (hwf : wfVals xs = true)
    (hfuel : needElemsV xs ≤ fuel) (hsc : s.scache = none)
    (htop : ∀ M t0, s.stack = M :: t0 → M < 2 ^ 64)
    (hr : s.r = (xs.map EncodeToBytes).flatten ++ rest)
    (hstk : s.stack = encLenList xs :: tl)
    (hlim : s.limited = true → encLenList xs ≤ s.remaining) :
    ∃ s', decodeElems fuel e s = .ok (xs, s') ∧
      Consumed s (encLenList xs) s' := by
  match fuel with
  | 0 =>
    have := needElemsV_pos xs
    omega
  | f + 1 =>
    match xs with
    | [] =>
      match f with
      | 0 =>
        unfold needElemsV at hfuel
        omega
      | f' + 1 =>
        have hstk0 : s.stack.head? = some 0 := by
          rw [hstk]
          rfl
        have heol := decodeTy_eol f' e s hsc hstk0
        refine ⟨s, ?_, consumed_zero s hsc⟩
        unfold decodeElems
        rw [heol]
    | x :: xs' =>
      have hf1 : needV x ≤ f := by
        unfold needElemsV at hfuel
        omega
      have hf2 : needElemsV xs' ≤ f := by
        unfold needElemsV at hfuel
        omega
      have hw := hwf
      unfold wfVals at hw
      rw [Bool.and_eq_true] at hw
      have hty2 := hty
      unfold hasTyList at hty2
      rw [Bool.and_eq_true] at hty2
      have hrx : s.r = EncodeToBytes x ++
          ((xs'.map EncodeToBytes).flatten ++ rest) := by
        rw [hr, List.map_cons, List.flatten_cons, List.append_assoc]
      have hcrx : CanRead s (encLen x) := by
        constructor
        · intro hl
          have := hlim hl
          rw [encLenList_cons] at this
          omega
        · intro L' t' ht'
          rw [hstk] at ht'
          injection ht' with h1 h2
          rw [encLenList_cons] at h1
          omega
      obtain ⟨s₁, hx, hcons1⟩ := decodeTy_enc f x e s _ hty2.1 hw.1 hf1
        hsc htop hrx hcrx
      have henc := encodeToBytes_length x hw.1
      have hr1 : s₁.r = (xs'.map EncodeToBytes).flatten ++ rest := by
        rw [hcons1.1, hrx, ← henc, List.drop_left]
      have hstk1 : s₁.stack = encLenList xs' :: tl := by
        have h3 := hcons1.2.2.2.1
        rw [hstk] at h3
        dsimp only at h3
        rw [h3, encLenList_cons]
        congr 1
        omega
      have hlim1 : s₁.limited = true → encLenList xs' ≤ s₁.remaining := by
        intro hl
        rw [hcons1.2.1] at hl
        rw [hcons1.2.2.1, hl, if_pos rfl]
        have := hlim hl
        rw [encLenList_cons] at this
        omega
      obtain ⟨s₂, hrec, hcons2⟩ := decodeElems_enc f xs' e s₁ rest tl
        hty2.2 hw.2 hf2 hcons1.2.2.2.2 (htop_after hcons1 htop) hr1 hstk1
        hlim1
      refine ⟨s₂, ?_, ?_⟩
      · unfold decodeElems
        rw [hx]
        dsimp only
        rw [hrec]
      · rw [encLenList_cons]
        exact consumed_trans hcons1 hcons2

/-- The field loop of `makeStructDecoder` decodes exactly the encoded
fields. -/
theorem decodeFields_enc (fuel : Nat) (xs : List Val) (ts : List Ty)
    (s : Stream) (rest : List Nat)
    (hty : hasTyFields xs ts = true) (hwf : wfVals xs = true)
    (hfuel : needFieldsV xs ≤ fuel) (hsc : s.scache = none)
    (htop : ∀ M t0, s.stack = M :: t0 → M < 2 ^ 64)
    (hr : s.r = (xs.map EncodeToBytes).flatten ++ rest)
    (hcr : CanRead s (encLenList xs)) :
    ∃ s', decodeFields fuel ts s = .ok (xs, s') ∧
      Consumed s (encLenList xs) s' := by
  match xs, ts with
  | [], [] =>
    refine ⟨s, ?_, consumed_zero s hsc⟩
    match fuel with
    | 0 => rfl
    | f + 1 => rfl
  | [], t' :: ts' => simp [hasTyFields] at hty
  | x :: xs', [] => simp [hasTyFields] at hty
  | x :: xs', t' :: ts' =>
    match fuel with
    | 0 =>
      unfold needFieldsV at hfuel
      omega
    | f + 1 =>
      have hf1 : needV x ≤ f := by
        unfold needFieldsV at hfuel
        omega
      have hf2 : needFieldsV xs' ≤ f := by
        unfold needFieldsV at hfuel
        omega
      have hw := hwf
      unfold wfVals at hw
      rw [Bool.and_eq_true] at hw
      have hty2 := hty
      unfold hasTyFields at hty2
      rw [Bool.and_eq_true] at hty2
      have hrx : s.r = EncodeToBytes x ++
          ((xs'.map EncodeToBytes).flatten ++ rest) := by
        rw [hr, List.map_cons, List.flatten_cons, List.append_assoc]
      have hcrx : CanRead s (encLen x) :=
        canRead_mono (by rw [encLenList_cons]; omega) hcr
      obtain ⟨s₁, hx, hcons1⟩ := decodeTy_enc f x t' s _ hty2.1 hw.1 hf1
        hsc htop hrx hcrx
      have henc := encodeToBytes_length x hw.1
      have hr1 : s₁.r = (xs'.map EncodeToBytes).flatten ++ rest := by
        rw [hcons1.1, hrx, ← henc, List.drop_left]
      have hcr1 : CanRead s₁ (encLenList xs') := by
        apply canRead_after hcons1
        rw [← encLenList_cons]
        exact hcr
      obtain ⟨s₂, hrec, hcons2⟩ := decodeFields_enc f xs' ts' s₁ rest
        hty2.2 hw.2 hf2 hcons1.2.2.2.2 (htop_after hcons1 htop) hr1 hcr1
      refine ⟨s₂, ?_, ?_⟩
      · unfold decodeFields
        rw [hx]
        dsimp only
        rw [hrec]
      · rw [encLenList_cons]
        exact consumed_trans hcons1 hcons2

end

/-- C1: for every value `v` of a supported shape `t` (unsigned integers,
booleans, strings, byte slices, non-byte slices, structs without tags),
decoding the bytes produced by encoding `v` yields `v` again: running
`DecodeBytes` with the decoder for `t` on `EncodeToBytes v` returns
exactly `v` (in particular an unsigned zero round-trips to zero — it is
part of the `tuint` case — and byte sequences preserve their bytes). -/
theorem round_trip_decode_encode (v : Val) (t : Ty)
    (hty : hasTy v t = true) (hwf : wfVal v = true) :
    decodeValBytes t (EncodeToBytes v) = .ok v := by
  unfold decodeValBytes DecodeBytes
  have hlen := encodeToBytes_length v hwf
  have hpos := encLen_pos v
  have hns : newByteStream (EncodeToBytes v) =
      ⟨EncodeToBytes v, (EncodeToBytes v).length, true, [], none, 0⟩ := by
    unfold newByteStream
    rw [if_pos (by omega)]
  rw [hns]
  have hfuel : needV v ≤ 2 * (EncodeToBytes v).length + 2 := by
    have := needV_le v
    rw [hlen]
    omega
  have hcr : CanRead
      (⟨EncodeToBytes v, (EncodeToBytes v).length, true, [], none,
        0⟩ : Stream) (encLen v) := by
    constructor
    · intro _
      dsimp only
      rw [hlen]
    · intro L tl h
      dsimp only at h
      exact absurd h (by simp)
  obtain ⟨s', hdec, hcons⟩ := decodeTy_enc
    (2 * (EncodeToBytes v).length + 2) v t
    ⟨EncodeToBytes v, (EncodeToBytes v).length, true, [], none, 0⟩ []
    hty hwf hfuel rfl (fun M t0 h => absurd h (by simp))
    (by rw [List.append_nil]) hcr
  rw [hdec]
  dsimp only
  have hr' : s'.r = [] := by
    rw [hcons.1]
    dsimp only
    rw [← hlen, List.drop_length]
  rw [hr']
  rw [if_neg (by simp)]

theorem round_trip_decode_encode_witness :
    hasTy (.vlist [.vuint 1]) (.tlist .tuint) = true ∧
    wfVal (.vlist [.vuint 1]) = true ∧
    decodeValBytes (.tlist .tuint) (EncodeToBytes (.vlist [.vuint 1])) =
      .ok (.vlist [.vuint 1]) :=
  ⟨rfl, by decide,
    round_trip_decode_encode (.vlist [.vuint 1]) (.tlist .tuint) rfl
      (by decide)⟩

end RLP
